import Mathlib

/-!
Verification of the TSP solvers in `src/TSP.py` (Hyderabad logistics case study).

The two solvers `tsp_greedy` and `tsp_branch_and_bound` are shallowly embedded
below.  Python lists become Lean `List`s; Python indexing (including negative
indices and `IndexError`) is modeled by `pyGet` / `pySet`; `math.inf` becomes
`⊤ : WithTop ℤ`; the unbounded recursion of `backtrack` is modeled with an
explicit fuel parameter (exhaustion is a distinguished error, and we prove it
never happens for fuel ≥ n).  The mutable `path` / `visited` lists of the
Python code are threaded through `backtrack` and returned, so that the
push/pop restore discipline of the source is visible in the model.
-/

namespace TSP

/-- Python-level runtime failures: `IndexError` from list indexing/assignment,
`ValueError` from `min` of an empty sequence, plus fuel exhaustion of the
modeled recursion. -/
inductive Err where
  | indexError : Err
  | valueError : Err
  | outOfFuel : Err
deriving DecidableEq, Repr

/-- Python list read `xs[i]`: non-negative indices from the front, negative
indices from the back, `IndexError` (`none`) when out of range. -/
def pyGet {α : Type} (xs : List α) (i : ℤ) : Option α :=
  if 0 ≤ i then xs.get? i.toNat
  else if 0 ≤ (xs.length : ℤ) + i then xs.get? ((xs.length : ℤ) + i).toNat
  else none

/-- Python list assignment `xs[i] = a` (same index semantics as `pyGet`). -/
def pySet {α : Type} (xs : List α) (i : ℤ) (a : α) : Option (List α) :=
  if 0 ≤ i then
    if i.toNat < xs.length then some (xs.set i.toNat a) else none
  else if 0 ≤ (xs.length : ℤ) + i then
    some (xs.set ((xs.length : ℤ) + i).toNat a)
  else none

/-- Python list assignment `xs[i] = a` for a natural-number index. -/
def pySetN {α : Type} (xs : List α) (i : ℕ) (a : α) : Option (List α) :=
  if i < xs.length then some (xs.set i a) else none

/-- Python double indexing `m[i][j]` into the distance matrix. -/
def pyGet2 (m : List (List ℤ)) (i j : ℤ) : Option ℤ :=
  (pyGet m i).bind (fun row => pyGet row j)

/-- One step of Python `min(..., key=lambda x: x[0])`: keep the accumulator
unless the new element has a strictly smaller first component. -/
def pickMin (a y : ℤ × ℤ) : ℤ × ℤ :=
  if y.1 < a.1 then y else a

/-- Python `min(pairs, key=lambda x: x[0])`: the first element attaining the
minimal first component; `ValueError` (`none`) on the empty list. -/
def pyMinKeyFst : List (ℤ × ℤ) → Option (ℤ × ℤ)
  | [] => none
  | x :: xs => some (xs.foldl pickMin x)

/-- The list comprehension
`[(distance_matrix[current][j], j) for j in range(n) if not visited[j]]`
from `tsp_greedy` (line 43 of `src/TSP.py`); a failing matrix lookup is an
`IndexError` for the whole comprehension. -/
def greedyCandidates (m : List (List ℤ)) (visited : List Bool) (current : ℤ)
    (n : ℕ) : Option (List (ℤ × ℤ)) :=
  ((List.range n).filter (fun j => decide (visited.get? j = some false))).mapM
    (fun j : ℕ => (pyGet2 m current (j : ℤ)).map (fun d => (d, (j : ℤ))))

/-- The `for _ in range(n - 1)` loop of `tsp_greedy` (lines 40-49) followed by
the closing edge and final append (lines 52-53).  `k` is the number of loop
iterations still to run; `path`, `visited`, `total`, `current` are the loop
state of the Python code. -/
def greedyLoop (m : List (List ℤ)) (start : ℤ) (n : ℕ) :
    ℕ → List ℤ → List Bool → ℤ → ℤ → Except Err (List ℤ × ℤ)
  | 0, path, _, total, current =>
    match pyGet2 m current start with
    | none => .error .indexError
    | some d => .ok (path ++ [start], total + d)
  | k + 1, path, visited, total, current =>
    match greedyCandidates m visited current n with
    | none => .error .indexError
    | some cands =>
      match pyMinKeyFst cands with
      | none => .error .valueError
      | some nc =>
        match pyGet2 m current nc.2 with
        | none => .error .indexError
        | some d =>
          match pySet visited nc.2 true with
          | none => .error .indexError
          | some visited1 =>
            greedyLoop m start n k (path ++ [nc.2]) visited1 (total + d) nc.2

/-- `tsp_greedy(distance_matrix, start)` from `src/TSP.py`, lines 32-54. -/
def tsp_greedy (m : List (List ℤ)) (start : ℤ) : Except Err (List ℤ × ℤ) :=
  let n := m.length
  match pySet (List.replicate n false) start true with
  | none => .error .indexError
  | some visited => greedyLoop m start n (n - 1) [start] visited 0 start

/-- The mutable `best_path` / `best_distance` pair of `tsp_branch_and_bound`
(`math.inf` is `⊤`). -/
structure BB where
  bestPath : List ℤ
  bestDist : WithTop ℤ
deriving DecidableEq, Repr

/-- The `for next_city in range(n)` loop of `backtrack` (lines 75-83 of
`src/TSP.py`).  `bt` is the recursive call at the remaining fuel; `current`
and `curDist` are the enclosing frame's `current_city` and
`current_distance`; the loop threads the mutable `path`, `visited` and the
best-so-far state, performing the push / recurse / pop / unmark sequence of
the source. -/
def btFor (m : List (List ℤ))
    (bt : List ℤ → List Bool → ℤ → BB → Except Err (List ℤ × List Bool × BB))
    (current : ℤ) (curDist : ℤ) :
    List ℕ → List ℤ → List Bool → BB → Except Err (List ℤ × List Bool × BB)
  | [], path, visited, st => .ok (path, visited, st)
  | c :: cs, path, visited, st =>
    match visited.get? c with
    | none => .error .indexError
    | some true => btFor m bt current curDist cs path visited st
    | some false =>
      match pyGet2 m current (c : ℤ) with
      | none => .error .indexError
      | some d =>
        if ((curDist + d : ℤ) : WithTop ℤ) < st.bestDist then
          match pySetN visited c true with
          | none => .error .indexError
          | some visitedT =>
            match bt (path ++ [(c : ℤ)]) visitedT (curDist + d) st with
            | .error e => .error e
            | .ok (path1, visited1, st1) =>
              match path1.getLast? with
              | none => .error .indexError
              | some _ =>
                match pySetN visited1 c false with
                | none => .error .indexError
                | some visitedF =>
                  btFor m bt current curDist cs path1.dropLast visitedF st1
        else btFor m bt current curDist cs path visited st

/-- The recursive `backtrack(path, visited, current_distance)` of
`tsp_branch_and_bound` (lines 62-83 of `src/TSP.py`), with explicit fuel. -/
def backtrack (m : List (List ℤ)) (start : ℤ) (n : ℕ) :
    ℕ → List ℤ → List Bool → ℤ → BB → Except Err (List ℤ × List Bool × BB)
  | 0, _, _, _, _ => .error .outOfFuel
  | fuel + 1, path, visited, curDist, st =>
    match pyGet path (-1) with
    | none => .error .indexError
    | some current =>
      if path.length = n then
        match pyGet2 m current start with
        | none => .error .indexError
        | some d =>
          if ((curDist + d : ℤ) : WithTop ℤ) < st.bestDist then
            .ok (path, visited, ⟨path, ((curDist + d : ℤ) : WithTop ℤ)⟩)
          else .ok (path, visited, st)
      else
        btFor m (backtrack m start n fuel) current curDist (List.range n)
          path visited st

/-- `tsp_branch_and_bound(distance_matrix, start)` from `src/TSP.py`,
lines 57-89 (fuel bounds the modeled recursion depth). -/
def tsp_branch_and_bound (m : List (List ℤ)) (start : ℤ) (fuel : ℕ) :
    Except Err (List ℤ × WithTop ℤ) :=
  let n := m.length
  match pySet (List.replicate n false) start true with
  | none => .error .indexError
  | some visited =>
    match backtrack m start n fuel [start] visited 0 ⟨[], ⊤⟩ with
    | .error e => .error e
    | .ok (_, _, st) => .ok (st.bestPath ++ [start], st.bestDist)

/-- The loop of `backtrack` with the pruning test
`if projected_distance < best_distance` removed: every unvisited child is
explored unconditionally (full exhaustive depth-first enumeration). -/
def btForNP (m : List (List ℤ))
    (bt : List ℤ → List Bool → ℤ → BB → Except Err (List ℤ × List Bool × BB))
    (current : ℤ) (curDist : ℤ) :
    List ℕ → List ℤ → List Bool → BB → Except Err (List ℤ × List Bool × BB)
  | [], path, visited, st => .ok (path, visited, st)
  | c :: cs, path, visited, st =>
    match visited.get? c with
    | none => .error .indexError
    | some true => btForNP m bt current curDist cs path visited st
    | some false =>
      match pyGet2 m current (c : ℤ) with
      | none => .error .indexError
      | some d =>
        match pySetN visited c true with
        | none => .error .indexError
        | some visitedT =>
          match bt (path ++ [(c : ℤ)]) visitedT (curDist + d) st with
          | .error e => .error e
          | .ok (path1, visited1, st1) =>
            match path1.getLast? with
            | none => .error .indexError
            | some _ =>
              match pySetN visited1 c false with
              | none => .error .indexError
              | some visitedF =>
                btForNP m bt current curDist cs path1.dropLast visitedF st1

/-- `backtrack` with the pruning test removed (same depth-first search,
exhaustive enumeration). -/
def backtrackNP (m : List (List ℤ)) (start : ℤ) (n : ℕ) :
    ℕ → List ℤ → List Bool → ℤ → BB → Except Err (List ℤ × List Bool × BB)
  | 0, _, _, _, _ => .error .outOfFuel
  | fuel + 1, path, visited, curDist, st =>
    match pyGet path (-1) with
    | none => .error .indexError
    | some current =>
      if path.length = n then
        match pyGet2 m current start with
        | none => .error .indexError
        | some d =>
          if ((curDist + d : ℤ) : WithTop ℤ) < st.bestDist then
            .ok (path, visited, ⟨path, ((curDist + d : ℤ) : WithTop ℤ)⟩)
          else .ok (path, visited, st)
      else
        btForNP m (backtrackNP m start n fuel) current curDist (List.range n)
          path visited st

/-- `tsp_branch_and_bound` with the pruning test removed. -/
def tsp_branch_and_bound_np (m : List (List ℤ)) (start : ℤ) (fuel : ℕ) :
    Except Err (List ℤ × WithTop ℤ) :=
  let n := m.length
  match pySet (List.replicate n false) start true with
  | none => .error .indexError
  | some visited =>
    match backtrackNP m start n fuel [start] visited 0 ⟨[], ⊤⟩ with
    | .error e => .error e
    | .ok (_, _, st) => .ok (st.bestPath ++ [start], st.bestDist)

/-- Literal recomputation of a tour length: the sum of
`distance_matrix[path[k]][path[k+1]]` over consecutive entries of `path`
(`IndexError` propagates as `none`). -/
def recompute (m : List (List ℤ)) : List ℤ → Option ℤ
  | [] => some 0
  | [_] => some 0
  | a :: b :: rest =>
    match pyGet2 m a b with
    | none => none
    | some d =>
      match recompute m (b :: rest) with
      | none => none
      | some s => some (d + s)

/-- Walk cost from `a` through the successive vertices of a list. -/
def walkFrom (m : List (List ℤ)) (a : ℤ) : List ℤ → Option ℤ
  | [] => some 0
  | y :: ys =>
    match pyGet2 m a y with
    | none => none
    | some d =>
      match walkFrom m y ys with
      | none => none
      | some s => some (d + s)

/-- The canonical injection of a list of natural-number indices into the
integer indices actually stored in a Python path. -/
def natsToInts (l : List ℕ) : List ℤ :=
  l.map (fun j : ℕ => (j : ℤ))

/-- Cost (in `WithTop ℤ`) of a closed tour `start :: q ++ [start]` described
by the list `q` of intermediate vertices; `⊤` if some lookup fails. -/
def tourCostW (m : List (List ℤ)) (start : ℤ) (q : List ℕ) : WithTop ℤ :=
  match recompute m (start :: (natsToInts q ++ [start])) with
  | none => ⊤
  | some t => (t : WithTop ℤ)

/-- The indices other than `start`, in ascending order. -/
def othersList (n : ℕ) (start : ℤ) : List ℕ :=
  (List.range n).filter (fun j => decide (¬((j : ℤ) = start)))

/-- Brute-force oracle: the minimum closed-tour length over all permutations
of the indices other than `start`. -/
def bruteMinDist (m : List (List ℤ)) (start : ℤ) : WithTop ℤ :=
  (((othersList m.length start).permutations).map (tourCostW m start)).foldr
    min ⊤

/-- The matrix is square of size `n`. -/
def SquareMat (m : List (List ℤ)) (n : ℕ) : Prop :=
  m.length = n ∧ ∀ r ∈ m, r.length = n

/-- All entries are non-negative. -/
def NonnegMat (m : List (List ℤ)) : Prop :=
  ∀ r ∈ m, ∀ x ∈ r, 0 ≤ x

/-- The diagonal is zero. -/
def ZeroDiag (m : List (List ℤ)) (n : ℕ) : Prop :=
  ∀ i, i < n → (m.get? i).bind (fun r => r.get? i) = some 0

/-- The matrix is symmetric. -/
def SymmMat (m : List (List ℤ)) (n : ℕ) : Prop :=
  ∀ i, i < n → ∀ j, j < n →
    (m.get? i).bind (fun r => r.get? j) = (m.get? j).bind (fun r => r.get? i)

instance (m : List (List ℤ)) (n : ℕ) : Decidable (SquareMat m n) := by
  unfold SquareMat
  infer_instance

instance (m : List (List ℤ)) : Decidable (NonnegMat m) := by
  unfold NonnegMat
  infer_instance

instance (m : List (List ℤ)) (n : ℕ) : Decidable (ZeroDiag m n) := by
  unfold ZeroDiag
  infer_instance

instance (m : List (List ℤ)) (n : ℕ) : Decidable (SymmMat m n) := by
  unfold SymmMat
  infer_instance

/-- The effective (normalized) index denoted by the possibly negative Python
index `start` into a list of length `n`. -/
def nsIdx (n : ℕ) (start : ℤ) : ℕ :=
  (if 0 ≤ start then start else start + (n : ℤ)).toNat

/-- The `visited` array determined by the normalized start index `ns` and the
list `restN` of further visited indices. -/
def mkVis (n ns : ℕ) (restN : List ℕ) : List Bool :=
  (List.range n).map (fun j => decide (j = ns ∨ j ∈ restN))

/-- Well-formedness of the visited-beyond-start list. -/
def RestInv (n ns : ℕ) (restN : List ℕ) : Prop :=
  restN.Nodup ∧ ∀ x ∈ restN, x < n ∧ x ≠ ns

/-- The unvisited indices, in ascending order. -/
def unvisL (n ns : ℕ) (restN : List ℕ) : List ℕ :=
  (List.range n).filter (fun j => decide (¬(j = ns ∨ j ∈ restN)))

/-- `visited` marks exactly the indices occurring in `path`. -/
def Marks (n : ℕ) (path : List ℤ) (visited : List Bool) : Prop :=
  visited.length = n ∧
    ∀ j, j < n → visited.get? j = some (decide ((j : ℤ) ∈ path))

/-- A value usable as a Python index into a list of length `n`. -/
def ValidIdx (n : ℕ) (i : ℤ) : Prop :=
  -(n : ℤ) ≤ i ∧ i < n

lemma pyGet_natCast {α : Type} (xs : List α) (j : ℕ) :
    pyGet xs (j : ℤ) = xs.get? j := by
  simp [pyGet]

lemma nsIdx_natCast (n : ℕ) (j : ℕ) : nsIdx n (j : ℤ) = j := by
  simp [nsIdx]

lemma nsIdx_lt {n : ℕ} {i : ℤ} (h1 : -(n : ℤ) ≤ i) (h2 : i < n) :
    nsIdx n i < n := by
  rcases le_or_lt 0 i with h | h
  · simp only [nsIdx, if_pos h]
    omega
  · simp only [nsIdx, if_neg (not_le.mpr h)]
    omega

lemma pyGet_norm {α : Type} (xs : List α) (i : ℤ)
    (h1 : -(xs.length : ℤ) ≤ i) (h2 : i < xs.length) :
    pyGet xs i = xs.get? (nsIdx xs.length i) := by
  rcases le_or_lt 0 i with h | h
  · simp [pyGet, nsIdx, h]
  · have hge : 0 ≤ (xs.length : ℤ) + i := by omega
    simp only [pyGet, if_neg (not_le.mpr h), if_pos hge, nsIdx,
      if_neg (not_le.mpr h)]
    congr 1
    omega

lemma pySet_norm {α : Type} (xs : List α) (i : ℤ) (a : α)
    (h1 : -(xs.length : ℤ) ≤ i) (h2 : i < xs.length) :
    pySet xs i a = some (xs.set (nsIdx xs.length i) a) := by
  rcases le_or_lt 0 i with h | h
  · have : i.toNat < xs.length := by omega
    simp [pySet, nsIdx, h, this]
  · have hge : 0 ≤ (xs.length : ℤ) + i := by omega
    simp only [pySet, if_neg (not_le.mpr h), if_pos hge, nsIdx,
      if_neg (not_le.mpr h)]
    congr 3
    omega

lemma pySet_oob {α : Type} (xs : List α) (i : ℤ) (a : α)
    (h : i < -(xs.length : ℤ) ∨ (xs.length : ℤ) ≤ i) :
    pySet xs i a = none := by
  rcases h with h | h
  · have h0 : ¬(0 ≤ i) := by omega
    have h1 : ¬(0 ≤ (xs.length : ℤ) + i) := by omega
    simp [pySet, h0, h1]
  · have h0 : 0 ≤ i := by omega
    have h1 : ¬(i.toNat < xs.length) := by omega
    simp [pySet, h0, h1]

lemma pySetN_of_get? {α : Type} {xs : List α} {c : ℕ} {b : α} (a : α)
    (h : xs.get? c = some b) :
    pySetN xs c a = some (xs.set c a) := by
  have : c < xs.length := by
    by_contra hc
    rw [List.get?_eq_none.mpr (by omega)] at h
    exact Option.noConfusion h
  simp [pySetN, this]

lemma pyGet_neg_one {α : Type} (xs : List α) :
    pyGet xs (-1) = xs.getLast? := by
  cases xs with
  | nil => simp [pyGet]
  | cons a l =>
    have hlen : 0 < (a :: l).length := by simp
    have hge : 0 ≤ ((a :: l).length : ℤ) + (-1) := by omega
    simp only [pyGet, if_neg (by omega : ¬((0:ℤ) ≤ -1)), if_pos hge]
    have htn : (((a :: l).length : ℤ) + (-1)).toNat = (a :: l).length - 1 := by
      omega
    rw [htn, List.getLast?_eq_get?]

lemma pyGet_mem {α : Type} {xs : List α} {i : ℤ} {a : α}
    (h : pyGet xs i = some a) : a ∈ xs := by
  unfold pyGet at h
  split at h
  · exact List.get?_mem h
  · split at h
    · exact List.get?_mem h
    · exact Option.noConfusion h

lemma pyGet_row {m : List (List ℤ)} {n : ℕ} {i : ℤ}
    (hsq : SquareMat m n) (hv : ValidIdx n i) :
    ∃ r, pyGet m i = some r ∧ r.length = n := by
  obtain ⟨hlen, hrow⟩ := hsq
  obtain ⟨h1, h2⟩ := hv
  subst hlen
  have hnorm := pyGet_norm m i h1 h2
  have hlt : nsIdx m.length i < m.length := nsIdx_lt h1 h2
  refine ⟨m.get ⟨nsIdx m.length i, hlt⟩, ?_, ?_⟩
  · rw [hnorm]; exact List.get?_eq_get hlt
  · exact hrow _ (List.get_mem m _ hlt)

lemma pyGet_valid {α : Type} (xs : List α) (i : ℤ)
    (h1 : -(xs.length : ℤ) ≤ i) (h2 : i < xs.length) :
    ∃ a, pyGet xs i = some a := by
  have hnorm := pyGet_norm xs i h1 h2
  have hlt : nsIdx xs.length i < xs.length := nsIdx_lt h1 h2
  exact ⟨xs.get ⟨nsIdx xs.length i, hlt⟩, by rw [hnorm]; exact List.get?_eq_get hlt⟩

lemma pyGet2_valid {m : List (List ℤ)} {n : ℕ} {i j : ℤ}
    (hsq : SquareMat m n) (hi : ValidIdx n i) (hj : ValidIdx n j) :
    ∃ d, pyGet2 m i j = some d := by
  obtain ⟨r, hr, hrl⟩ := pyGet_row hsq hi
  obtain ⟨d, hd⟩ := pyGet_valid r j
    (by rw [hrl]; exact hj.1) (by rw [hrl]; exact hj.2)
  exact ⟨d, by simp [pyGet2, hr, hd]⟩

lemma pyGet2_mem {m : List (List ℤ)} {i j : ℤ} {d : ℤ}
    (h : pyGet2 m i j = some d) : ∃ r ∈ m, d ∈ r := by
  unfold pyGet2 at h
  cases hr : pyGet m i with
  | none => rw [hr] at h; exact Option.noConfusion h
  | some r =>
    rw [hr] at h
    exact ⟨r, pyGet_mem hr, pyGet_mem h⟩

lemma pyGet2_nonneg {m : List (List ℤ)} {i j : ℤ} {d : ℤ}
    (hnn : NonnegMat m) (h : pyGet2 m i j = some d) : 0 ≤ d := by
  obtain ⟨r, hrm, hdr⟩ := pyGet2_mem h
  exact hnn r hrm d hdr

lemma recompute_cons (m : List (List ℤ)) (a : ℤ) (ys : List ℤ) :
    recompute m (a :: ys) = walkFrom m a ys := by
  induction ys generalizing a with
  | nil => simp [recompute, walkFrom]
  | cons b rest ih =>
    simp only [recompute, walkFrom, ih b]

lemma walkFrom_append (m : List (List ℤ)) (a : ℤ) (ys zs : List ℤ) :
    walkFrom m a (ys ++ zs) =
      (walkFrom m a ys).bind
        (fun d => (walkFrom m (ys.getLastD a) zs).map (fun e => d + e)) := by
  induction ys generalizing a with
  | nil =>
    cases h : walkFrom m a zs <;> simp [walkFrom, h]
  | cons y ys ih =>
    simp only [List.cons_append, walkFrom, List.getLastD_cons, List.append_eq]
    cases hd : pyGet2 m a y with
    | none => simp
    | some d =>
      rw [ih y]
      cases h1 : walkFrom m y ys with
      | none => simp
      | some s =>
        cases h2 : walkFrom m (ys.getLastD y) zs with
        | none => simp
        | some w => simp [add_assoc]

lemma walkFrom_nonneg {m : List (List ℤ)} (hnn : NonnegMat m) {a : ℤ}
    {ys : List ℤ} {w : ℤ} (h : walkFrom m a ys = some w) : 0 ≤ w := by
  induction ys generalizing a w with
  | nil => simp [walkFrom] at h; omega
  | cons y ys ih =>
    simp only [walkFrom] at h
    cases hd : pyGet2 m a y with
    | none => rw [hd] at h; exact Option.noConfusion h
    | some d =>
      rw [hd] at h
      cases hs : walkFrom m y ys with
      | none => rw [hs] at h; exact Option.noConfusion h
      | some s =>
        rw [hs] at h
        have h1 := pyGet2_nonneg hnn hd
        have h2 := ih hs
        simp only [Option.some.injEq] at h
        omega

lemma walkFrom_valid {m : List (List ℤ)} {n : ℕ} (hsq : SquareMat m n)
    {a : ℤ} {ys : List ℤ} (ha : ValidIdx n a)
    (hys : ∀ y ∈ ys, ValidIdx n y) :
    ∃ w, walkFrom m a ys = some w := by
  induction ys generalizing a with
  | nil => exact ⟨0, rfl⟩
  | cons y ys ih =>
    obtain ⟨d, hd⟩ := pyGet2_valid hsq ha (hys y (by simp))
    obtain ⟨s, hs⟩ := ih (hys y (by simp)) (fun z hz => hys z (by simp [hz]))
    exact ⟨d + s, by simp [walkFrom, hd, hs]⟩

lemma mkVis_length (n ns : ℕ) (r : List ℕ) : (mkVis n ns r).length = n := by
  simp [mkVis]

lemma mkVis_get? (n ns : ℕ) (r : List ℕ) {j : ℕ} (hj : j < n) :
    (mkVis n ns r).get? j = some (decide (j = ns ∨ j ∈ r)) := by
  rw [mkVis, List.get?_map, List.get?_range hj]
  rfl

lemma mkVis_get?_ge (n ns : ℕ) (r : List ℕ) {j : ℕ} (hj : n ≤ j) :
    (mkVis n ns r).get? j = none :=
  List.get?_eq_none.mpr (by simp [mkVis_length]; omega)

lemma map_range_set {α : Type} (f : ℕ → α) (n c : ℕ) (b : α) :
    ((List.range n).map f).set c b =
      (List.range n).map (fun j => if j = c then b else f j) := by
  apply List.ext_get?
  intro j
  rcases lt_or_ge j n with hj | hj
  · rcases eq_or_ne j c with rfl | hne
    · rw [List.get?_set_eq_of_lt _ (by simp [hj]), List.get?_map,
        List.get?_range hj]
      simp
    · rw [List.get?_set_ne _ _ (fun h => hne h.symm)]
      simp [List.get?_map, List.getElem?_range hj, hne]
  · have h1 : ((List.range n).map f).length ≤ j := by simp [hj]
    have h2 : ((List.range n).map fun j => if j = c then b else f j).length ≤ j := by
      simp [hj]
    rw [List.get?_eq_none.mpr (by simpa using h1), List.get?_eq_none.mpr h2]

lemma mkVis_set_true (n ns : ℕ) (r : List ℕ) (c : ℕ) :
    (mkVis n ns r).set c true = mkVis n ns (r ++ [c]) := by
  rw [mkVis, map_range_set]
  apply List.map_congr_left
  intro j _
  rcases eq_or_ne j c with rfl | hne
  · simp
  · simp [hne]

lemma mkVis_set_false (n ns : ℕ) (r : List ℕ) (c : ℕ)
    (hcm : ¬(c = ns ∨ c ∈ r)) :
    (mkVis n ns (r ++ [c])).set c false = mkVis n ns r := by
  rw [mkVis, map_range_set]
  apply List.map_congr_left
  intro j _
  rcases eq_or_ne j c with rfl | hne
  · simp [hcm]
  · simp [hne]

lemma mem_unvisL {n ns : ℕ} {r : List ℕ} {j : ℕ} :
    j ∈ unvisL n ns r ↔ j < n ∧ ¬(j = ns ∨ j ∈ r) := by
  simp [unvisL, List.mem_filter]

lemma unvisL_nodup (n ns : ℕ) (r : List ℕ) : (unvisL n ns r).Nodup :=
  (List.nodup_range n).filter _

lemma perm_of_nodup_subset_len {α : Type} {l r : List α}
    (hn : l.Nodup) (hs : l ⊆ r) (hl : r.length ≤ l.length) : l.Perm r :=
  (hn.subperm hs).perm_of_length_le hl

lemma range_perm_marks {n ns : ℕ} {r : List ℕ} (hns : ns < n)
    (hr : RestInv n ns r) :
    (List.range n).Perm ((ns :: r) ++ unvisL n ns r) := by
  obtain ⟨hnd, hb⟩ := hr
  have hmarks : (ns :: r).Nodup := by
    rw [List.nodup_cons]
    exact ⟨fun h => (hb ns h).2 rfl, hnd⟩
  have hrhs : ((ns :: r) ++ unvisL n ns r).Nodup := by
    rw [List.nodup_append]
    refine ⟨hmarks, unvisL_nodup n ns r, ?_⟩
    intro x hx hx2
    rw [mem_unvisL] at hx2
    rcases List.mem_cons.mp hx with rfl | hx
    · exact hx2.2 (Or.inl rfl)
    · exact hx2.2 (Or.inr hx)
  refine (List.perm_ext_iff_of_nodup (List.nodup_range n) hrhs).mpr ?_
  intro j
  rw [List.mem_range, List.mem_append, List.mem_cons, mem_unvisL]
  constructor
  · intro hj
    by_cases hc : j = ns ∨ j ∈ r
    · exact Or.inl hc
    · exact Or.inr ⟨hj, hc⟩
  · rintro ((rfl | hj) | ⟨hj, _⟩)
    · exact hns
    · exact (hb j hj).1
    · exact hj

lemma length_unvisL {n ns : ℕ} {r : List ℕ} (hns : ns < n)
    (hr : RestInv n ns r) :
    (unvisL n ns r).length + (r.length + 1) = n := by
  have h := (range_perm_marks hns hr).length_eq
  simp only [List.length_range, List.length_append, List.length_cons] at h
  omega

lemma le_foldr_min {b : WithTop ℤ} {l : List (WithTop ℤ)}
    (h : ∀ x ∈ l, b ≤ x) : b ≤ l.foldr min ⊤ := by
  induction l with
  | nil => exact le_top
  | cons a l ih =>
    exact le_min (h a (by simp)) (ih (fun x hx => h x (by simp [hx])))

lemma foldr_min_le {x : WithTop ℤ} {l : List (WithTop ℤ)} (h : x ∈ l) :
    l.foldr min ⊤ ≤ x := by
  induction l with
  | nil => exact absurd h (List.not_mem_nil x)
  | cons a l ih =>
    rcases List.mem_cons.mp h with rfl | h
    · exact min_le_left _ _
    · exact (min_le_right _ _).trans (ih h)

lemma mapM_option_of {α β : Type} (l : List α) (f : α → Option β) (g : α → β)
    (h : ∀ a ∈ l, f a = some (g a)) : l.mapM f = some (l.map g) := by
  induction l with
  | nil => rfl
  | cons a l ih =>
    rw [List.mapM_cons, h a (by simp), ih (fun x hx => h x (by simp [hx]))]
    rfl

lemma foldl_pickMin_mem : ∀ (xs : List (ℤ × ℤ)) (a : ℤ × ℤ),
    xs.foldl pickMin a ∈ a :: xs := by
  intro xs
  induction xs with
  | nil => intro a; simp
  | cons y ys ih =>
    intro a
    rw [List.foldl_cons]
    have h := ih (pickMin a y)
    have hp : pickMin a y = y ∨ pickMin a y = a := by
      unfold pickMin
      split
      · exact Or.inl rfl
      · exact Or.inr rfl
    rcases List.mem_cons.mp h with he | hm
    · rcases hp with hy | ha
      · rw [he, hy]; simp
      · rw [he, ha]; simp
    · simp [hm]

lemma pyMinKeyFst_mem {l : List (ℤ × ℤ)} {x : ℤ × ℤ}
    (h : pyMinKeyFst l = some x) : x ∈ l := by
  cases l with
  | nil => exact Option.noConfusion h
  | cons a xs =>
    simp only [pyMinKeyFst, Option.some.injEq] at h
    rw [← h]
    exact foldl_pickMin_mem xs a

lemma unvisL_append (n ns : ℕ) (r : List ℕ) (c : ℕ) :
    unvisL n ns (r ++ [c]) = (unvisL n ns r).erase c := by
  rw [((unvisL_nodup n ns r).erase_eq_filter c), unvisL, unvisL,
    List.filter_filter]
  apply List.filter_congr
  intro j _
  simp only [List.mem_append, List.mem_singleton, decide_not, Bool.not_eq_true]
  by_cases h1 : j = ns <;> by_cases h2 : j ∈ r <;> by_cases h3 : j = c <;>
    simp [h1, h2, h3]


lemma natsToInts_nil : natsToInts [] = [] := rfl

lemma natsToInts_append (l r : List ℕ) :
    natsToInts (l ++ r) = natsToInts l ++ natsToInts r := by
  simp [natsToInts]

lemma natsToInts_singleton (j : ℕ) : natsToInts [j] = [(j : ℤ)] := rfl

lemma natsToInts_length (l : List ℕ) : (natsToInts l).length = l.length := by
  simp [natsToInts]

lemma mem_natsToInts {l : List ℕ} {y : ℤ} :
    y ∈ natsToInts l ↔ ∃ j ∈ l, (j : ℤ) = y := by
  simp [natsToInts]

lemma natsToInts_getLastD_concat (l : List ℕ) (j : ℕ) (d : ℤ) :
    (natsToInts (l ++ [j])).getLastD d = (j : ℤ) := by
  rw [natsToInts_append, natsToInts_singleton, List.getLastD_concat]

lemma validIdx_natCast {n : ℕ} {j : ℕ} (hj : j < n) : ValidIdx n (j : ℤ) := by
  constructor <;> omega

lemma validIdx_cur {n : ℕ} {start : ℤ} (hlo : -(n : ℤ) ≤ start)
    (hhi : start < (n : ℤ)) (midsN : List ℕ) (hb : ∀ x ∈ midsN, x < n) :
    ValidIdx n ((natsToInts midsN).getLastD start) := by
  rcases List.eq_nil_or_concat midsN with rfl | ⟨l, x, rfl⟩
  · exact ⟨hlo, hhi⟩
  · rw [List.concat_eq_append] at hb ⊢
    rw [natsToInts_getLastD_concat]
    exact validIdx_natCast (hb x (by simp))

lemma replicate_set_eq_mkVis {n ns : ℕ} (hns : ns < n) :
    (List.replicate n false).set ns true = mkVis n ns [] := by
  apply List.ext_get?
  intro j
  rcases lt_or_ge j n with hj | hj
  · rcases eq_or_ne j ns with rfl | hne
    · rw [List.get?_set_eq_of_lt _ (by simp [hj]), mkVis_get? n j [] hj]
      simp
    · rw [List.get?_set_ne _ _ (fun h => hne h.symm), mkVis_get? n ns [] hj]
      have : (List.replicate n false).get? j = some false :=
        List.get?_eq_get (by simp [hj]) |>.trans (by simp)
      rw [this]
      simp [hne]
  · rw [List.get?_eq_none.mpr (by simp; omega),
      List.get?_eq_none.mpr (by rw [mkVis_length]; omega)]

lemma pySet_mkVis (n ns : ℕ) (r : List ℕ) {j : ℕ} (hj : j < n) :
    pySet (mkVis n ns r) (j : ℤ) true = some (mkVis n ns (r ++ [j])) := by
  have hl := mkVis_length n ns r
  rw [pySet_norm (mkVis n ns r) (j : ℤ) true (by rw [hl]; omega)
      (by rw [hl]; omega)]
  rw [hl, nsIdx_natCast, mkVis_set_true]

lemma greedyCandidates_eq {m : List (List ℤ)} {n : ℕ} (hsq : SquareMat m n)
    (ns : ℕ) (midsN : List ℕ) {current : ℤ} (hcur : ValidIdx n current) :
    greedyCandidates m (mkVis n ns midsN) current n =
      some ((unvisL n ns midsN).map
        (fun j : ℕ => ((pyGet2 m current (j : ℤ)).getD 0, (j : ℤ)))) := by
  unfold greedyCandidates
  have hfil : (List.range n).filter
      (fun j => decide ((mkVis n ns midsN).get? j = some false)) =
      unvisL n ns midsN := by
    unfold unvisL
    apply List.filter_congr
    intro j hj
    rw [List.mem_range] at hj
    rw [mkVis_get? n ns midsN hj]
    by_cases h : j = ns ∨ j ∈ midsN <;> simp [h]
  rw [hfil]
  apply mapM_option_of
  intro j hj
  rw [mem_unvisL] at hj
  obtain ⟨d, hd⟩ := pyGet2_valid hsq hcur (validIdx_natCast hj.1)
  rw [hd]
  simp [hd]

lemma greedyLoop_zero_eq {m : List (List ℤ)} {start : ℤ} {n : ℕ}
    {path : List ℤ} {visited : List Bool} {total current d : ℤ}
    (h : pyGet2 m current start = some d) :
    greedyLoop m start n 0 path visited total current =
      .ok (path ++ [start], total + d) := by
  unfold greedyLoop
  rw [h]

lemma greedyLoop_succ_eq {m : List (List ℤ)} {start : ℤ} {n k : ℕ}
    {path : List ℤ} {visited visited1 : List Bool} {total d : ℤ}
    {current : ℤ} {cands : List (ℤ × ℤ)} {nc : ℤ × ℤ}
    (h1 : greedyCandidates m visited current n = some cands)
    (h2 : pyMinKeyFst cands = some nc)
    (h3 : pyGet2 m current nc.2 = some d)
    (h4 : pySet visited nc.2 true = some visited1) :
    greedyLoop m start n (k + 1) path visited total current =
      greedyLoop m start n k (path ++ [nc.2]) visited1 (total + d) nc.2 := by
  conv_lhs => unfold greedyLoop
  rw [h1]
  simp only []
  rw [h2]
  simp only []
  rw [h3]
  simp only []
  rw [h4]

lemma greedyLoop_main {m : List (List ℤ)} {n : ℕ} {start : ℤ}
    (hsq : SquareMat m n) (hlo : -(n : ℤ) ≤ start) (hhi : start < (n : ℤ)) :
    ∀ (k : ℕ) (midsN : List ℕ) (total : ℤ),
    RestInv n (nsIdx n start) midsN →
    k + midsN.length + 1 = n →
    walkFrom m start (natsToInts midsN) = some total →
    ∃ midsF tg,
      greedyLoop m start n k (start :: natsToInts midsN)
          (mkVis n (nsIdx n start) midsN) total
          ((natsToInts midsN).getLastD start) =
        .ok (start :: (natsToInts midsF ++ [start]), tg) ∧
      RestInv n (nsIdx n start) midsF ∧
      midsF.length = n - 1 ∧
      walkFrom m start (natsToInts midsF ++ [start]) = some tg := by
  have hns : nsIdx n start < n := nsIdx_lt hlo hhi
  intro k
  induction k with
  | zero =>
    intro midsN total hinv hlen hwalk
    obtain ⟨dcl, hdcl⟩ := pyGet2_valid hsq
      (validIdx_cur hlo hhi midsN (fun x hx => (hinv.2 x hx).1)) ⟨hlo, hhi⟩
    refine ⟨midsN, total + dcl, ?_, hinv, by omega, ?_⟩
    · rw [greedyLoop_zero_eq hdcl]
      rfl
    · rw [walkFrom_append, hwalk]
      have hdcl2 : pyGet2 m ((natsToInts midsN).getLast?.getD start) start =
          some dcl := by
        rw [← List.getLastD_eq_getLast?]
        exact hdcl
      simp [walkFrom, hdcl2]
  | succ k ih =>
    intro midsN total hinv hlen hwalk
    have hcur := validIdx_cur hlo hhi midsN (fun x hx => (hinv.2 x hx).1)
    have hcand := greedyCandidates_eq hsq (nsIdx n start) midsN hcur
    have hunvlen := length_unvisL hns hinv
    have hne : unvisL n (nsIdx n start) midsN ≠ [] := by
      intro h
      rw [h] at hunvlen
      simp at hunvlen
      omega
    obtain ⟨x, xs, hx⟩ := List.exists_cons_of_ne_nil hne
    set cur := (natsToInts midsN).getLastD start with hcurdef
    set g := (fun j : ℕ => ((pyGet2 m cur (j : ℤ)).getD 0, (j : ℤ)))
      with hgdef
    set nc := (xs.map g).foldl pickMin (g x) with hncdef
    have hmin : pyMinKeyFst ((unvisL n (nsIdx n start) midsN).map g) =
        some nc := by
      rw [hx, List.map_cons]
      rfl
    have hmem : nc ∈ (unvisL n (nsIdx n start) midsN).map g := by
      rw [hx, List.map_cons]
      exact foldl_pickMin_mem _ _
    obtain ⟨j, hjmem, hjg⟩ := List.mem_map.mp hmem
    have hj := mem_unvisL.mp hjmem
    have hnc2 : nc.2 = (j : ℤ) := by rw [← hjg]
    obtain ⟨d, hd⟩ := pyGet2_valid hsq hcur (validIdx_natCast hj.1)
    have hset := pySet_mkVis n (nsIdx n start) midsN hj.1
    have hinv2 : RestInv n (nsIdx n start) (midsN ++ [j]) := by
      obtain ⟨hnd, hb⟩ := hinv
      constructor
      · rw [List.nodup_append]
        refine ⟨hnd, List.nodup_singleton j, ?_⟩
        intro a ha ha2
        rw [List.mem_singleton] at ha2
        subst ha2
        exact hj.2 (Or.inr ha)
      · intro a ha
        rcases List.mem_append.mp ha with ha | ha
        · exact hb a ha
        · rw [List.mem_singleton] at ha
          subst ha
          exact ⟨hj.1, fun h => hj.2 (Or.inl h)⟩
    have hwalk2 : walkFrom m start (natsToInts (midsN ++ [j])) =
        some (total + d) := by
      rw [natsToInts_append, walkFrom_append, hwalk, natsToInts_singleton]
      simp only [Option.bind_eq_bind, Option.some_bind, ← hcurdef]
      simp [walkFrom, hd]
    have hcur2 : (natsToInts (midsN ++ [j])).getLastD start = (j : ℤ) :=
      natsToInts_getLastD_concat midsN j start
    obtain ⟨midsF, tg, heq, hrestF, hlenF, hwalkF⟩ :=
      ih (midsN ++ [j]) (total + d) hinv2 (by simp; omega) hwalk2
    have hd2 : pyGet2 m cur nc.2 = some d := by rw [hnc2]; exact hd
    have hset2 : pySet (mkVis n (nsIdx n start) midsN) nc.2 true =
        some (mkVis n (nsIdx n start) (midsN ++ [j])) := by
      rw [hnc2]; exact hset
    refine ⟨midsF, tg, ?_, hrestF, hlenF, hwalkF⟩
    rw [greedyLoop_succ_eq hcand hmin hd2 hset2, hnc2]
    rw [hcur2] at heq
    rw [natsToInts_append, natsToInts_singleton] at heq
    exact heq

lemma tsp_greedy_main {m : List (List ℤ)} {n : ℕ} {start : ℤ}
    (hsq : SquareMat m n) (hn : 1 ≤ n) (hlo : -(n : ℤ) ≤ start)
    (hhi : start < (n : ℤ)) :
    ∃ midsF tg,
      tsp_greedy m start = .ok (start :: (natsToInts midsF ++ [start]), tg) ∧
      RestInv n (nsIdx n start) midsF ∧
      midsF.length = n - 1 ∧
      walkFrom m start (natsToInts midsF ++ [start]) = some tg := by
  have hns : nsIdx n start < n := nsIdx_lt hlo hhi
  have hmlen : m.length = n := hsq.1
  have hset : pySet (List.replicate n false) start true =
      some (mkVis n (nsIdx n start) []) := by
    rw [pySet_norm (List.replicate n false) start true
      (by rw [List.length_replicate]; exact hlo)
      (by rw [List.length_replicate]; exact hhi)]
    rw [List.length_replicate, replicate_set_eq_mkVis hns]
  have hri : RestInv n (nsIdx n start) [] :=
    ⟨List.nodup_nil, fun x hx => absurd hx (List.not_mem_nil x)⟩
  have hk : (n - 1) + ([] : List ℕ).length + 1 = n := by
    simp only [List.length_nil]
    omega
  obtain ⟨midsF, tg, heq, h1, h2, h3⟩ :=
    greedyLoop_main hsq hlo hhi (n - 1) [] 0 hri hk rfl
  refine ⟨midsF, tg, ?_, h1, h2, h3⟩
  simp only [tsp_greedy]
  rw [hmlen, hset]
  simp only []
  exact heq

lemma natsToInts_cons (j : ℕ) (l : List ℕ) :
    natsToInts (j :: l) = (j : ℤ) :: natsToInts l := rfl

lemma getLast?_cons_eq {α : Type} (a : α) (l : List α) :
    (a :: l).getLast? = some (l.getLastD a) := by
  induction l generalizing a with
  | nil => rfl
  | cons b l ih =>
    rw [List.getLast?_cons_cons, ih b, List.getLastD_cons]

lemma pyGet_path_last {start : ℤ} (l : List ℤ) :
    pyGet (start :: l) (-1) = some (l.getLastD start) := by
  rw [pyGet_neg_one, getLast?_cons_eq]

lemma btFor_skip_eq (m : List (List ℤ))
    (bt : List ℤ → List Bool → ℤ → BB → Except Err (List ℤ × List Bool × BB))
    (current curDist : ℤ) {c : ℕ} (cs : List ℕ) (path : List ℤ)
    {visited : List Bool} (st : BB)
    (h : visited.get? c = some true) :
    btFor m bt current curDist (c :: cs) path visited st =
      btFor m bt current curDist cs path visited st := by
  conv_lhs => unfold btFor
  rw [h]

lemma btFor_prune_eq (m : List (List ℤ))
    (bt : List ℤ → List Bool → ℤ → BB → Except Err (List ℤ × List Bool × BB))
    (current curDist : ℤ) {d : ℤ} {c : ℕ} (cs : List ℕ) (path : List ℤ)
    {visited : List Bool} (st : BB)
    (h1 : visited.get? c = some false)
    (h2 : pyGet2 m current (c : ℤ) = some d)
    (h3 : ¬(((curDist + d : ℤ) : WithTop ℤ) < st.bestDist)) :
    btFor m bt current curDist (c :: cs) path visited st =
      btFor m bt current curDist cs path visited st := by
  conv_lhs => unfold btFor
  rw [h1]
  simp only []
  rw [h2]
  simp only []
  rw [if_neg h3]

lemma btFor_descend_eq (m : List (List ℤ))
    (bt : List ℤ → List Bool → ℤ → BB → Except Err (List ℤ × List Bool × BB))
    (current curDist : ℤ) {d : ℤ} {c : ℕ} (cs : List ℕ)
    {path path1 : List ℤ}
    {visited visitedT visited1 visitedF : List Bool} {st st1 : BB} {z : ℤ}
    (h1 : visited.get? c = some false)
    (h2 : pyGet2 m current (c : ℤ) = some d)
    (h3 : ((curDist + d : ℤ) : WithTop ℤ) < st.bestDist)
    (h4 : pySetN visited c true = some visitedT)
    (h5 : bt (path ++ [(c : ℤ)]) visitedT (curDist + d) st =
      .ok (path1, visited1, st1))
    (h6 : path1.getLast? = some z)
    (h7 : pySetN visited1 c false = some visitedF) :
    btFor m bt current curDist (c :: cs) path visited st =
      btFor m bt current curDist cs path1.dropLast visitedF st1 := by
  conv_lhs => unfold btFor
  rw [h1]
  simp only []
  rw [h2]
  simp only []
  rw [if_pos h3, h4]
  simp only []
  rw [h5]
  simp only []
  rw [h6]
  simp only []
  rw [h7]

lemma backtrack_terminal_update_eq {m : List (List ℤ)} {start : ℤ} {n fuel : ℕ}
    {path : List ℤ} {visited : List Bool} {curDist current d : ℤ} {st : BB}
    (hcur : pyGet path (-1) = some current)
    (hlen : path.length = n)
    (hd : pyGet2 m current start = some d)
    (hlt : ((curDist + d : ℤ) : WithTop ℤ) < st.bestDist) :
    backtrack m start n (fuel + 1) path visited curDist st =
      .ok (path, visited, ⟨path, ((curDist + d : ℤ) : WithTop ℤ)⟩) := by
  conv_lhs => unfold backtrack
  rw [hcur]
  simp only []
  rw [if_pos hlen, hd]
  simp only []
  rw [if_pos hlt]

lemma backtrack_terminal_keep_eq {m : List (List ℤ)} {start : ℤ} {n fuel : ℕ}
    {path : List ℤ} {visited : List Bool} {curDist current d : ℤ} {st : BB}
    (hcur : pyGet path (-1) = some current)
    (hlen : path.length = n)
    (hd : pyGet2 m current start = some d)
    (hge : ¬(((curDist + d : ℤ) : WithTop ℤ) < st.bestDist)) :
    backtrack m start n (fuel + 1) path visited curDist st =
      .ok (path, visited, st) := by
  conv_lhs => unfold backtrack
  rw [hcur]
  simp only []
  rw [if_pos hlen, hd]
  simp only []
  rw [if_neg hge]

lemma backtrack_loop_eq {m : List (List ℤ)} {start : ℤ} {n fuel : ℕ}
    {path : List ℤ} {visited : List Bool} {curDist current : ℤ} {st : BB}
    (hcur : pyGet path (-1) = some current)
    (hlen : path.length ≠ n) :
    backtrack m start n (fuel + 1) path visited curDist st =
      btFor m (backtrack m start n fuel) current curDist (List.range n)
        path visited st := by
  conv_lhs => unfold backtrack
  rw [hcur]
  simp only []
  rw [if_neg hlen]

/-- Well-formedness of the mutable best-so-far state of the search: either
nothing has been found yet (`⊤`), or the recorded path is a full simple tour
prefix whose recomputed closed-tour cost is the recorded distance. -/
def Good (m : List (List ℤ)) (n : ℕ) (start : ℤ) (st : BB) : Prop :=
  st.bestDist = ⊤ ∨
  ∃ t restB, st.bestDist = ((t : ℤ) : WithTop ℤ) ∧
    st.bestPath = start :: natsToInts restB ∧
    RestInv n (nsIdx n start) restB ∧
    restB.length + 1 = n ∧
    walkFrom m start (natsToInts restB ++ [start]) = some t

lemma tourCostW_eq_walk (m : List (List ℤ)) (start : ℤ) (q : List ℕ) :
    tourCostW m start q =
      match walkFrom m start (natsToInts q ++ [start]) with
      | none => ⊤
      | some t => ((t : ℤ) : WithTop ℤ) := by
  rw [tourCostW, recompute_cons]

lemma walkFrom_snoc {m : List (List ℤ)} {a y : ℤ} {ys : List ℤ} {w d : ℤ}
    (hw : walkFrom m a ys = some w) (hd : pyGet2 m (ys.getLastD a) y = some d) :
    walkFrom m a (ys ++ [y]) = some (w + d) := by
  rw [walkFrom_append, hw]
  have hd2 : pyGet2 m (ys.getLast?.getD a) y = some d := by
    rw [← List.getLastD_eq_getLast?]
    exact hd
  simp [walkFrom, hd2]

lemma validIdx_tail {n : ℕ} {start : ℤ} (hlo : -(n : ℤ) ≤ start)
    (hhi : start < (n : ℤ)) {q : List ℕ} (hq : ∀ x ∈ q, x < n) :
    ∀ y ∈ natsToInts q ++ [start], ValidIdx n y := by
  intro y hy
  rcases List.mem_append.mp hy with hy | hy
  · obtain ⟨j, hj, rfl⟩ := mem_natsToInts.mp hy
    exact validIdx_natCast (hq j hj)
  · rw [List.mem_singleton] at hy
    subst hy
    exact ⟨hlo, hhi⟩

lemma tourCostW_some {m : List (List ℤ)} {n : ℕ} {start : ℤ}
    (hsq : SquareMat m n) (hlo : -(n : ℤ) ≤ start) (hhi : start < (n : ℤ))
    {q : List ℕ} (hq : ∀ x ∈ q, x < n) :
    ∃ t : ℤ, tourCostW m start q = ((t : ℤ) : WithTop ℤ) := by
  obtain ⟨w, hw⟩ := walkFrom_valid hsq ⟨hlo, hhi⟩ (validIdx_tail hlo hhi hq)
  refine ⟨w, ?_⟩
  rw [tourCostW_eq_walk, hw]

lemma tourCostW_ge {m : List (List ℤ)} {n : ℕ} {start : ℤ}
    (hsq : SquareMat m n) (hnn : NonnegMat m) (hlo : -(n : ℤ) ≤ start)
    (hhi : start < (n : ℤ)) {restN : List ℕ} {c : ℕ} {q : List ℕ}
    {pd : ℤ} (hc : c < n) (hq : ∀ x ∈ q, x < n)
    (hwc : walkFrom m start (natsToInts (restN ++ [c])) = some pd) :
    ((pd : ℤ) : WithTop ℤ) ≤ tourCostW m start (restN ++ (c :: q)) := by
  have hsplit : natsToInts (restN ++ (c :: q)) ++ [start] =
      natsToInts (restN ++ [c]) ++ (natsToInts q ++ [start]) := by
    rw [natsToInts_append, natsToInts_append, natsToInts_cons,
      natsToInts_singleton]
    simp [List.append_assoc]
  have hlast : (natsToInts (restN ++ [c])).getLastD start = (c : ℤ) :=
    natsToInts_getLastD_concat restN c start
  obtain ⟨w, hw⟩ := walkFrom_valid hsq (validIdx_natCast hc)
    (validIdx_tail hlo hhi hq)
  have htot : walkFrom m start (natsToInts (restN ++ (c :: q)) ++ [start]) =
      some (pd + w) := by
    rw [hsplit, walkFrom_append, hwc, hlast, hw]
    simp
  rw [tourCostW_eq_walk, htot]
  have hw0 : 0 ≤ w := walkFrom_nonneg hnn hw
  exact WithTop.coe_le_coe.mpr (by omega)

lemma unvisL_ne_nil {n ns : ℕ} {r : List ℕ} (hns : ns < n)
    (hr : RestInv n ns r) (hlt : r.length + 1 < n) : unvisL n ns r ≠ [] := by
  intro h
  have := length_unvisL hns hr
  rw [h] at this
  simp at this
  omega

lemma perm_unvis_cons {n ns : ℕ} {r : List ℕ} {c : ℕ} {q1 : List ℕ}
    (hc : c ∈ unvisL n ns r) (hq : q1.Perm (unvisL n ns (r ++ [c]))) :
    (c :: q1).Perm (unvisL n ns r) := by
  rw [unvisL_append] at hq
  exact (hq.cons c).trans (List.perm_cons_erase hc).symm

lemma perm_unvis_uncons {n ns : ℕ} {r : List ℕ} {q : List ℕ}
    (hq : q.Perm (unvisL n ns r)) (hne : q ≠ []) :
    ∃ c q1, q = c :: q1 ∧ c ∈ unvisL n ns r ∧
      q1.Perm (unvisL n ns (r ++ [c])) := by
  cases q with
  | nil => exact absurd rfl hne
  | cons c q1 =>
    have hc : c ∈ unvisL n ns r := hq.mem_iff.mp (by simp)
    refine ⟨c, q1, rfl, hc, ?_⟩
    rw [unvisL_append]
    exact (hq.trans (List.perm_cons_erase hc)).cons_inv

lemma backtrack_main {m : List (List ℤ)} {n : ℕ} {start : ℤ}
    (hsq : SquareMat m n) (hlo : -(n : ℤ) ≤ start) (hhi : start < (n : ℤ)) :
    ∀ (fuel : ℕ) (restN : List ℕ) (curDist : ℤ) (st : BB),
    RestInv n (nsIdx n start) restN →
    restN.length + 1 ≤ n →
    n ≤ fuel + restN.length →
    walkFrom m start (natsToInts restN) = some curDist →
    Good m n start st →
    ∃ st2,
      backtrack m start n fuel (start :: natsToInts restN)
          (mkVis n (nsIdx n start) restN) curDist st =
        .ok (start :: natsToInts restN, mkVis n (nsIdx n start) restN, st2) ∧
      st2.bestDist ≤ st.bestDist ∧
      Good m n start st2 ∧
      st2.bestDist < ⊤ ∧
      (NonnegMat m →
        ∀ q, q.Perm (unvisL n (nsIdx n start) restN) →
          st2.bestDist ≤ tourCostW m start (restN ++ q)) ∧
      (NonnegMat m →
        st2.bestDist = st.bestDist ∨
        ∃ q, q.Perm (unvisL n (nsIdx n start) restN) ∧
          st2.bestDist = tourCostW m start (restN ++ q)) := by
  have hns : nsIdx n start < n := nsIdx_lt hlo hhi
  intro fuel
  induction fuel with
  | zero =>
    intro restN curDist st hinv hlen hfuel hwalk hG
    exfalso
    omega
  | succ fuel IHf =>
    intro restN curDist st hinv hlen hfuel hwalk hG
    set cur := (natsToInts restN).getLastD start with hcurdef
    have hcur : pyGet (start :: natsToInts restN) (-1) = some cur :=
      pyGet_path_last (natsToInts restN)
    have hcurvalid : ValidIdx n cur :=
      validIdx_cur hlo hhi restN (fun x hx => (hinv.2 x hx).1)
    rcases eq_or_ne (restN.length + 1) n with hterm | hterm
    · -- terminal frame: the path is complete, close the tour
      obtain ⟨dcl, hdcl⟩ := pyGet2_valid hsq hcurvalid ⟨hlo, hhi⟩
      have hplen : (start :: natsToInts restN).length = n := by
        simp only [List.length_cons, natsToInts_length]
        omega
      have hwcl : walkFrom m start (natsToInts restN ++ [start]) =
          some (curDist + dcl) := walkFrom_snoc hwalk hdcl
      have hcost : tourCostW m start restN =
          ((curDist + dcl : ℤ) : WithTop ℤ) := by
        rw [tourCostW_eq_walk, hwcl]
      have hunv : unvisL n (nsIdx n start) restN = [] := by
        have := length_unvisL hns hinv
        exact List.eq_nil_of_length_eq_zero (by omega)
      by_cases hguard : ((curDist + dcl : ℤ) : WithTop ℤ) < st.bestDist
      · refine ⟨⟨start :: natsToInts restN, ((curDist + dcl : ℤ) : WithTop ℤ)⟩,
          backtrack_terminal_update_eq hcur hplen hdcl hguard,
          le_of_lt hguard, ?_, WithTop.coe_lt_top _, ?_, ?_⟩
        · exact Or.inr ⟨curDist + dcl, restN, rfl, rfl, hinv, hterm, hwcl⟩
        · intro _ q hq
          rw [hunv] at hq
          have hqnil : q = [] := hq.eq_nil
          subst hqnil
          rw [List.append_nil, hcost]
        · intro _
          refine Or.inr ⟨[], ?_, ?_⟩
          · rw [hunv]
          · rw [List.append_nil, hcost]
      · refine ⟨st, backtrack_terminal_keep_eq hcur hplen hdcl hguard,
          le_refl _, hG,
          lt_of_le_of_lt (not_lt.mp hguard) (WithTop.coe_lt_top _), ?_, ?_⟩
        · intro _ q hq
          rw [hunv] at hq
          have hqnil : q = [] := hq.eq_nil
          subst hqnil
          rw [List.append_nil, hcost]
          exact not_lt.mp hguard
        · intro _
          exact Or.inl rfl
    · -- interior frame: iterate over the children
      have hlt2 : restN.length + 1 < n := by omega
      have LOOP : ∀ (cs : List ℕ), (∀ c ∈ cs, c < n) → ∀ st : BB,
          Good m n start st →
          ∃ st2, btFor m (backtrack m start n fuel) cur curDist cs
              (start :: natsToInts restN) (mkVis n (nsIdx n start) restN) st =
            .ok (start :: natsToInts restN, mkVis n (nsIdx n start) restN,
              st2) ∧
            st2.bestDist ≤ st.bestDist ∧ Good m n start st2 ∧
            ((∃ c, c ∈ cs ∧ ¬(c = nsIdx n start ∨ c ∈ restN)) →
              st2.bestDist < ⊤) ∧
            (NonnegMat m → ∀ c, c ∈ cs → ¬(c = nsIdx n start ∨ c ∈ restN) →
              ∀ q, q.Perm (unvisL n (nsIdx n start) (restN ++ [c])) →
                st2.bestDist ≤ tourCostW m start (restN ++ (c :: q))) ∧
            (NonnegMat m → st2.bestDist = st.bestDist ∨
              ∃ c, c ∈ cs ∧ ¬(c = nsIdx n start ∨ c ∈ restN) ∧
                ∃ q, q.Perm (unvisL n (nsIdx n start) (restN ++ [c])) ∧
                  st2.bestDist = tourCostW m start (restN ++ (c :: q))) := by
        intro cs
        induction cs with
        | nil =>
          intro _ st hG
          refine ⟨st, rfl, le_refl _, hG, ?_, ?_, fun _ => Or.inl rfl⟩
          · rintro ⟨c, hc, -⟩
            exact absurd hc (List.not_mem_nil c)
          · intro _ c hc
            exact absurd hc (List.not_mem_nil c)
        | cons c cs IHcs =>
          intro hbound st hG
          have hc : c < n := hbound c (by simp)
          have hrest : ∀ x ∈ cs, x < n := fun x hx => hbound x (by simp [hx])
          have hgetc := mkVis_get? n (nsIdx n start) restN hc
          by_cases hcv : c = nsIdx n start ∨ c ∈ restN
          · -- child already visited: the loop skips it
            have hskip := btFor_skip_eq m (backtrack m start n fuel) cur
              curDist cs (start :: natsToInts restN) st
              (by rw [hgetc]; simp [hcv])
            obtain ⟨st2, heq2, hm2, hg2, hf2, hu2, ha2⟩ := IHcs hrest st hG
            refine ⟨st2, by rw [hskip]; exact heq2, hm2, hg2, ?_, ?_, ?_⟩
            · rintro ⟨c2, hc2, hcv2⟩
              rcases List.mem_cons.mp hc2 with rfl | hc2
              · exact absurd hcv hcv2
              · exact hf2 ⟨c2, hc2, hcv2⟩
            · intro hnn c2 hc2 hcv2 q hq
              rcases List.mem_cons.mp hc2 with rfl | hc2
              · exact absurd hcv hcv2
              · exact hu2 hnn c2 hc2 hcv2 q hq
            · intro hnn
              rcases ha2 hnn with h | ⟨c2, hc2, hcv2, q, hq, he⟩
              · exact Or.inl h
              · exact Or.inr ⟨c2, by simp [hc2], hcv2, q, hq, he⟩
          · -- child unvisited: prune or descend
            have hgetf : (mkVis n (nsIdx n start) restN).get? c = some false := by
              rw [hgetc]
              simp [hcv]
            obtain ⟨d, hd⟩ := pyGet2_valid hsq hcurvalid (validIdx_natCast hc)
            have hwc : walkFrom m start (natsToInts (restN ++ [c])) =
                some (curDist + d) := by
              rw [natsToInts_append, natsToInts_singleton]
              exact walkFrom_snoc hwalk hd
            by_cases hguard : ((curDist + d : ℤ) : WithTop ℤ) < st.bestDist
            · -- descend into the child
              have hsetT : pySetN (mkVis n (nsIdx n start) restN) c true =
                  some ((mkVis n (nsIdx n start) restN).set c true) :=
                pySetN_of_get? true hgetf
              have hinvc : RestInv n (nsIdx n start) (restN ++ [c]) := by
                obtain ⟨hnd, hb⟩ := hinv
                constructor
                · rw [List.nodup_append]
                  refine ⟨hnd, List.nodup_singleton c, ?_⟩
                  intro a ha ha2
                  rw [List.mem_singleton] at ha2
                  subst ha2
                  exact hcv (Or.inr ha)
                · intro a ha
                  rcases List.mem_append.mp ha with ha | ha
                  · exact hb a ha
                  · rw [List.mem_singleton] at ha
                    subst ha
                    exact ⟨hc, fun h => hcv (Or.inl h)⟩
              obtain ⟨st1, heq1, hm1, hg1, hlt1, hu1, ha1⟩ :=
                IHf (restN ++ [c]) (curDist + d) st hinvc
                  (by simp only [List.length_append, List.length_singleton]; omega)
                  (by simp only [List.length_append, List.length_singleton]; omega)
                  hwc hG
              rw [natsToInts_append, natsToInts_singleton] at heq1
              have hvisT : (mkVis n (nsIdx n start) restN).set c true =
                  mkVis n (nsIdx n start) (restN ++ [c]) :=
                mkVis_set_true n (nsIdx n start) restN c
              have h5 : backtrack m start n fuel
                  ((start :: natsToInts restN) ++ [(c : ℤ)])
                  ((mkVis n (nsIdx n start) restN).set c true) (curDist + d)
                  st =
                  .ok (start :: (natsToInts restN ++ [(c : ℤ)]),
                    mkVis n (nsIdx n start) (restN ++ [c]), st1) := by
                rw [hvisT]
                exact heq1
              have h6 : (start :: (natsToInts restN ++ [(c : ℤ)])).getLast? =
                  some (c : ℤ) := by
                rw [getLast?_cons_eq, List.getLastD_concat]
              have hgetc1 : (mkVis n (nsIdx n start) (restN ++ [c])).get? c =
                  some true := by
                rw [mkVis_get? n (nsIdx n start) _ hc]
                simp
              have h7 : pySetN (mkVis n (nsIdx n start) (restN ++ [c])) c
                  false =
                  some ((mkVis n (nsIdx n start) (restN ++ [c])).set c
                    false) := pySetN_of_get? false hgetc1
              have hvisF : (mkVis n (nsIdx n start) (restN ++ [c])).set c
                  false = mkVis n (nsIdx n start) restN :=
                mkVis_set_false n (nsIdx n start) restN c hcv
              have hdrop : (start :: (natsToInts restN ++ [(c : ℤ)])).dropLast
                  = start :: natsToInts restN := by
                rw [show start :: (natsToInts restN ++ [(c : ℤ)]) =
                  (start :: natsToInts restN) ++ [(c : ℤ)] from rfl,
                  List.dropLast_concat]
              have hstep := btFor_descend_eq m (backtrack m start n fuel)
                cur curDist cs hgetf hd hguard hsetT h5 h6 h7
              rw [hdrop, hvisF] at hstep
              obtain ⟨st2, heq2, hm2, hg2, hf2, hu2, ha2⟩ := IHcs hrest st1 hg1
              refine ⟨st2, by rw [hstep]; exact heq2, hm2.trans hm1, hg2,
                ?_, ?_, ?_⟩
              · intro _
                exact lt_of_le_of_lt hm2 hlt1
              · intro hnn c2 hc2 hcv2 q hq
                rcases List.mem_cons.mp hc2 with rfl | hc2
                · have hupper := hu1 hnn q hq
                  have harr : (restN ++ [c2]) ++ q = restN ++ (c2 :: q) := by
                    simp
                  rw [harr] at hupper
                  exact hm2.trans hupper
                · exact hu2 hnn c2 hc2 hcv2 q hq
              · intro hnn
                rcases ha2 hnn with he2 | ⟨c2, hc2, hcv2, q, hq, he⟩
                · rcases ha1 hnn with he1 | ⟨q, hq, he⟩
                  · exact Or.inl (he2.trans he1)
                  · refine Or.inr ⟨c, by simp, hcv, q, hq, ?_⟩
                    have harr : (restN ++ [c]) ++ q = restN ++ (c :: q) := by
                      simp
                    rw [he2, he, harr]
                · exact Or.inr ⟨c2, by simp [hc2], hcv2, q, hq, he⟩
            · -- prune the child: its projected cost cannot beat the best
              have hstep := btFor_prune_eq m (backtrack m start n fuel)
                cur curDist cs (start :: natsToInts restN) st hgetf hd
                hguard
              obtain ⟨st2, heq2, hm2, hg2, hf2, hu2, ha2⟩ := IHcs hrest st hG
              have hle : st.bestDist ≤ ((curDist + d : ℤ) : WithTop ℤ) :=
                not_lt.mp hguard
              refine ⟨st2, by rw [hstep]; exact heq2, hm2, hg2, ?_, ?_, ?_⟩
              · intro _
                exact lt_of_le_of_lt (hm2.trans hle) (WithTop.coe_lt_top _)
              · intro hnn c2 hc2 hcv2 q hq
                rcases List.mem_cons.mp hc2 with rfl | hc2
                · have hqlt : ∀ x ∈ q, x < n := fun x hx =>
                    (mem_unvisL.mp (hq.mem_iff.mp hx)).1
                  have hgec := tourCostW_ge hsq hnn hlo hhi hc hqlt hwc
                  exact hm2.trans (hle.trans hgec)
                · exact hu2 hnn c2 hc2 hcv2 q hq
              · intro hnn
                rcases ha2 hnn with he2 | ⟨c2, hc2, hcv2, q, hq, he⟩
                · exact Or.inl he2
                · exact Or.inr ⟨c2, by simp [hc2], hcv2, q, hq, he⟩
      obtain ⟨st2, heqL, hm, hg, hfL, huL, haL⟩ :=
        LOOP (List.range n) (fun c hcc => List.mem_range.mp hcc) st hG
      have hlenne : (start :: natsToInts restN).length ≠ n := by
        simp only [List.length_cons, natsToInts_length]
        omega
      refine ⟨st2, ?_, hm, hg, ?_, ?_, ?_⟩
      · rw [backtrack_loop_eq hcur hlenne]
        exact heqL
      · have hne := unvisL_ne_nil hns hinv hlt2
        obtain ⟨c0, cs0, hc0⟩ := List.exists_cons_of_ne_nil hne
        have hc0m : c0 ∈ unvisL n (nsIdx n start) restN := by
          rw [hc0]
          simp
        have hprops := mem_unvisL.mp hc0m
        exact hfL ⟨c0, List.mem_range.mpr hprops.1, hprops.2⟩
      · intro hnn q hq
        have hne := unvisL_ne_nil hns hinv hlt2
        have hqne : q ≠ [] := by
          intro h
          subst h
          exact hne hq.symm.eq_nil
        obtain ⟨c0, q1, rfl, hc0, hq1⟩ := perm_unvis_uncons hq hqne
        have hprops := mem_unvisL.mp hc0
        exact huL hnn c0 (List.mem_range.mpr hprops.1) hprops.2 q1 hq1
      · intro hnn
        rcases haL hnn with h | ⟨c0, hc0, hcv0, q1, hq1, he⟩
        · exact Or.inl h
        · refine Or.inr ⟨c0 :: q1, ?_, he⟩
          apply perm_unvis_cons _ hq1
          exact mem_unvisL.mpr ⟨List.mem_range.mp hc0, hcv0⟩

lemma tsp_bb_main {m : List (List ℤ)} {n : ℕ} {start : ℤ}
    (hsq : SquareMat m n) (hn : 1 ≤ n) (hlo : -(n : ℤ) ≤ start)
    (hhi : start < (n : ℤ)) {fuel : ℕ} (hfuel : n ≤ fuel) :
    ∃ st2 : BB,
      tsp_branch_and_bound m start fuel =
        .ok (st2.bestPath ++ [start], st2.bestDist) ∧
      Good m n start st2 ∧
      st2.bestDist < ⊤ ∧
      (NonnegMat m →
        ∀ q, q.Perm (unvisL n (nsIdx n start) []) →
          st2.bestDist ≤ tourCostW m start q) ∧
      (NonnegMat m →
        ∃ q, q.Perm (unvisL n (nsIdx n start) []) ∧
          st2.bestDist = tourCostW m start q) := by
  have hns : nsIdx n start < n := nsIdx_lt hlo hhi
  have hmlen : m.length = n := hsq.1
  have hset : pySet (List.replicate n false) start true =
      some (mkVis n (nsIdx n start) []) := by
    rw [pySet_norm (List.replicate n false) start true
      (by rw [List.length_replicate]; exact hlo)
      (by rw [List.length_replicate]; exact hhi)]
    rw [List.length_replicate, replicate_set_eq_mkVis hns]
  have hri : RestInv n (nsIdx n start) [] :=
    ⟨List.nodup_nil, fun x hx => absurd hx (List.not_mem_nil x)⟩
  obtain ⟨st2, heq, hmono, hGood, hlt, hupper, hatt⟩ :=
    backtrack_main hsq hlo hhi fuel [] 0 ⟨[], ⊤⟩ hri (by simp; omega)
      (by simp; omega) rfl (Or.inl rfl)
  rw [natsToInts_nil] at heq
  refine ⟨st2, ?_, hGood, hlt, ?_, ?_⟩
  · simp only [tsp_branch_and_bound]
    rw [hmlen, hset]
    simp only []
    rw [heq]
  · intro hnn q hq
    have := hupper hnn q hq
    rwa [List.nil_append] at this
  · intro hnn
    rcases hatt hnn with he | ⟨q, hq, he⟩
    · exfalso
      rw [he] at hlt
      exact lt_irrefl _ hlt
    · rw [List.nil_append] at he
      exact ⟨q, hq, he⟩

lemma unvisL_nil_eq_others {n : ℕ} {start : ℤ} (hst : 0 ≤ start) :
    unvisL n (nsIdx n start) [] = othersList n start := by
  unfold unvisL othersList
  apply List.filter_congr
  intro j _
  have : j = nsIdx n start ↔ (j : ℤ) = start := by
    unfold nsIdx
    rw [if_pos hst]
    omega
  simp [this]

lemma bruteMin_eq_of {m : List (List ℤ)} {start : ℤ} (b : WithTop ℤ)
    (hupper : ∀ q, q.Perm (othersList m.length start) →
      b ≤ tourCostW m start q)
    (hatt : ∃ q, q.Perm (othersList m.length start) ∧
      b = tourCostW m start q) :
    b = bruteMinDist m start := by
  apply le_antisymm
  · apply le_foldr_min
    intro x hx
    obtain ⟨q, hq, rfl⟩ := List.mem_map.mp hx
    exact hupper q (List.mem_permutations.mp hq)
  · obtain ⟨q, hq, he⟩ := hatt
    rw [he]
    exact foldr_min_le (List.mem_map.mpr ⟨q, List.mem_permutations.mpr hq, rfl⟩)

lemma btForNP_skip_eq (m : List (List ℤ))
    (bt : List ℤ → List Bool → ℤ → BB → Except Err (List ℤ × List Bool × BB))
    (current curDist : ℤ) {c : ℕ} (cs : List ℕ) (path : List ℤ)
    {visited : List Bool} (st : BB)
    (h : visited.get? c = some true) :
    btForNP m bt current curDist (c :: cs) path visited st =
      btForNP m bt current curDist cs path visited st := by
  conv_lhs => unfold btForNP
  rw [h]

lemma btForNP_descend_eq (m : List (List ℤ))
    (bt : List ℤ → List Bool → ℤ → BB → Except Err (List ℤ × List Bool × BB))
    (current curDist : ℤ) {d : ℤ} {c : ℕ} (cs : List ℕ)
    {path path1 : List ℤ}
    {visited visitedT visited1 visitedF : List Bool} {st st1 : BB} {z : ℤ}
    (h1 : visited.get? c = some false)
    (h2 : pyGet2 m current (c : ℤ) = some d)
    (h4 : pySetN visited c true = some visitedT)
    (h5 : bt (path ++ [(c : ℤ)]) visitedT (curDist + d) st =
      .ok (path1, visited1, st1))
    (h6 : path1.getLast? = some z)
    (h7 : pySetN visited1 c false = some visitedF) :
    btForNP m bt current curDist (c :: cs) path visited st =
      btForNP m bt current curDist cs path1.dropLast visitedF st1 := by
  conv_lhs => unfold btForNP
  rw [h1]
  simp only []
  rw [h2]
  simp only []
  rw [h4]
  simp only []
  rw [h5]
  simp only []
  rw [h6]
  simp only []
  rw [h7]

lemma backtrackNP_terminal_update_eq {m : List (List ℤ)} {start : ℤ}
    {n fuel : ℕ} {path : List ℤ} {visited : List Bool}
    {curDist current d : ℤ} {st : BB}
    (hcur : pyGet path (-1) = some current)
    (hlen : path.length = n)
    (hd : pyGet2 m current start = some d)
    (hlt : ((curDist + d : ℤ) : WithTop ℤ) < st.bestDist) :
    backtrackNP m start n (fuel + 1) path visited curDist st =
      .ok (path, visited, ⟨path, ((curDist + d : ℤ) : WithTop ℤ)⟩) := by
  conv_lhs => unfold backtrackNP
  rw [hcur]
  simp only []
  rw [if_pos hlen, hd]
  simp only []
  rw [if_pos hlt]

lemma backtrackNP_terminal_keep_eq {m : List (List ℤ)} {start : ℤ}
    {n fuel : ℕ} {path : List ℤ} {visited : List Bool}
    {curDist current d : ℤ} {st : BB}
    (hcur : pyGet path (-1) = some current)
    (hlen : path.length = n)
    (hd : pyGet2 m current start = some d)
    (hge : ¬(((curDist + d : ℤ) : WithTop ℤ) < st.bestDist)) :
    backtrackNP m start n (fuel + 1) path visited curDist st =
      .ok (path, visited, st) := by
  conv_lhs => unfold backtrackNP
  rw [hcur]
  simp only []
  rw [if_pos hlen, hd]
  simp only []
  rw [if_neg hge]

lemma backtrackNP_loop_eq {m : List (List ℤ)} {start : ℤ} {n fuel : ℕ}
    {path : List ℤ} {visited : List Bool} {curDist current : ℤ} {st : BB}
    (hcur : pyGet path (-1) = some current)
    (hlen : path.length ≠ n) :
    backtrackNP m start n (fuel + 1) path visited curDist st =
      btForNP m (backtrackNP m start n fuel) current curDist (List.range n)
        path visited st := by
  conv_lhs => unfold backtrackNP
  rw [hcur]
  simp only []
  rw [if_neg hlen]

lemma backtrackNP_main {m : List (List ℤ)} {n : ℕ} {start : ℤ}
    (hsq : SquareMat m n) (hlo : -(n : ℤ) ≤ start) (hhi : start < (n : ℤ)) :
    ∀ (fuel : ℕ) (restN : List ℕ) (curDist : ℤ) (st : BB),
    RestInv n (nsIdx n start) restN →
    restN.length + 1 ≤ n →
    n ≤ fuel + restN.length →
    walkFrom m start (natsToInts restN) = some curDist →
    Good m n start st →
    ∃ st2,
      backtrackNP m start n fuel (start :: natsToInts restN)
          (mkVis n (nsIdx n start) restN) curDist st =
        .ok (start :: natsToInts restN, mkVis n (nsIdx n start) restN, st2) ∧
      st2.bestDist ≤ st.bestDist ∧
      Good m n start st2 ∧
      st2.bestDist < ⊤ ∧
      (∀ q, q.Perm (unvisL n (nsIdx n start) restN) →
        st2.bestDist ≤ tourCostW m start (restN ++ q)) ∧
      (st2.bestDist = st.bestDist ∨
        ∃ q, q.Perm (unvisL n (nsIdx n start) restN) ∧
          st2.bestDist = tourCostW m start (restN ++ q)) := by
  have hns : nsIdx n start < n := nsIdx_lt hlo hhi
  intro fuel
  induction fuel with
  | zero =>
    intro restN curDist st hinv hlen hfuel hwalk hG
    exfalso
    omega
  | succ fuel IHf =>
    intro restN curDist st hinv hlen hfuel hwalk hG
    set cur := (natsToInts restN).getLastD start with hcurdef
    have hcur : pyGet (start :: natsToInts restN) (-1) = some cur :=
      pyGet_path_last (natsToInts restN)
    have hcurvalid : ValidIdx n cur :=
      validIdx_cur hlo hhi restN (fun x hx => (hinv.2 x hx).1)
    rcases eq_or_ne (restN.length + 1) n with hterm | hterm
    · obtain ⟨dcl, hdcl⟩ := pyGet2_valid hsq hcurvalid ⟨hlo, hhi⟩
      have hplen : (start :: natsToInts restN).length = n := by
        simp only [List.length_cons, natsToInts_length]
        omega
      have hwcl : walkFrom m start (natsToInts restN ++ [start]) =
          some (curDist + dcl) := walkFrom_snoc hwalk hdcl
      have hcost : tourCostW m start restN =
          ((curDist + dcl : ℤ) : WithTop ℤ) := by
        rw [tourCostW_eq_walk, hwcl]
      have hunv : unvisL n (nsIdx n start) restN = [] := by
        have := length_unvisL hns hinv
        exact List.eq_nil_of_length_eq_zero (by omega)
      by_cases hguard : ((curDist + dcl : ℤ) : WithTop ℤ) < st.bestDist
      · refine ⟨⟨start :: natsToInts restN, ((curDist + dcl : ℤ) : WithTop ℤ)⟩,
          backtrackNP_terminal_update_eq hcur hplen hdcl hguard,
          le_of_lt hguard, ?_, WithTop.coe_lt_top _, ?_, ?_⟩
        · exact Or.inr ⟨curDist + dcl, restN, rfl, rfl, hinv, hterm, hwcl⟩
        · intro q hq
          rw [hunv] at hq
          have hqnil : q = [] := hq.eq_nil
          subst hqnil
          rw [List.append_nil, hcost]
        · refine Or.inr ⟨[], ?_, ?_⟩
          · rw [hunv]
          · rw [List.append_nil, hcost]
      · refine ⟨st, backtrackNP_terminal_keep_eq hcur hplen hdcl hguard,
          le_refl _, hG,
          lt_of_le_of_lt (not_lt.mp hguard) (WithTop.coe_lt_top _), ?_, ?_⟩
        · intro q hq
          rw [hunv] at hq
          have hqnil : q = [] := hq.eq_nil
          subst hqnil
          rw [List.append_nil, hcost]
          exact not_lt.mp hguard
        · exact Or.inl rfl
    · have hlt2 : restN.length + 1 < n := by omega
      have LOOP : ∀ (cs : List ℕ), (∀ c ∈ cs, c < n) → ∀ st : BB,
          Good m n start st →
          ∃ st2, btForNP m (backtrackNP m start n fuel) cur curDist cs
              (start :: natsToInts restN) (mkVis n (nsIdx n start) restN) st =
            .ok (start :: natsToInts restN, mkVis n (nsIdx n start) restN,
              st2) ∧
            st2.bestDist ≤ st.bestDist ∧ Good m n start st2 ∧
            ((∃ c, c ∈ cs ∧ ¬(c = nsIdx n start ∨ c ∈ restN)) →
              st2.bestDist < ⊤) ∧
            (∀ c, c ∈ cs → ¬(c = nsIdx n start ∨ c ∈ restN) →
              ∀ q, q.Perm (unvisL n (nsIdx n start) (restN ++ [c])) →
                st2.bestDist ≤ tourCostW m start (restN ++ (c :: q))) ∧
            (st2.bestDist = st.bestDist ∨
              ∃ c, c ∈ cs ∧ ¬(c = nsIdx n start ∨ c ∈ restN) ∧
                ∃ q, q.Perm (unvisL n (nsIdx n start) (restN ++ [c])) ∧
                  st2.bestDist = tourCostW m start (restN ++ (c :: q))) := by
        intro cs
        induction cs with
        | nil =>
          intro _ st hG
          refine ⟨st, rfl, le_refl _, hG, ?_, ?_, Or.inl rfl⟩
          · rintro ⟨c, hc, -⟩
            exact absurd hc (List.not_mem_nil c)
          · intro c hc
            exact absurd hc (List.not_mem_nil c)
        | cons c cs IHcs =>
          intro hbound st hG
          have hc : c < n := hbound c (by simp)
          have hrest : ∀ x ∈ cs, x < n := fun x hx => hbound x (by simp [hx])
          have hgetc := mkVis_get? n (nsIdx n start) restN hc
          by_cases hcv : c = nsIdx n start ∨ c ∈ restN
          · have hskip := btForNP_skip_eq m (backtrackNP m start n fuel)
              cur curDist cs (start :: natsToInts restN) st
              (by rw [hgetc]; simp [hcv])
            obtain ⟨st2, heq2, hm2, hg2, hf2, hu2, ha2⟩ := IHcs hrest st hG
            refine ⟨st2, by rw [hskip]; exact heq2, hm2, hg2, ?_, ?_, ?_⟩
            · rintro ⟨c2, hc2, hcv2⟩
              rcases List.mem_cons.mp hc2 with rfl | hc2
              · exact absurd hcv hcv2
              · exact hf2 ⟨c2, hc2, hcv2⟩
            · intro c2 hc2 hcv2 q hq
              rcases List.mem_cons.mp hc2 with rfl | hc2
              · exact absurd hcv hcv2
              · exact hu2 c2 hc2 hcv2 q hq
            · rcases ha2 with h | ⟨c2, hc2, hcv2, q, hq, he⟩
              · exact Or.inl h
              · exact Or.inr ⟨c2, by simp [hc2], hcv2, q, hq, he⟩
          · have hgetf : (mkVis n (nsIdx n start) restN).get? c =
                some false := by
              rw [hgetc]
              simp [hcv]
            obtain ⟨d, hd⟩ := pyGet2_valid hsq hcurvalid (validIdx_natCast hc)
            have hwc : walkFrom m start (natsToInts (restN ++ [c])) =
                some (curDist + d) := by
              rw [natsToInts_append, natsToInts_singleton]
              exact walkFrom_snoc hwalk hd
            have hsetT : pySetN (mkVis n (nsIdx n start) restN) c true =
                some ((mkVis n (nsIdx n start) restN).set c true) :=
              pySetN_of_get? true hgetf
            have hinvc : RestInv n (nsIdx n start) (restN ++ [c]) := by
              obtain ⟨hnd, hb⟩ := hinv
              constructor
              · rw [List.nodup_append]
                refine ⟨hnd, List.nodup_singleton c, ?_⟩
                intro a ha ha2
                rw [List.mem_singleton] at ha2
                subst ha2
                exact hcv (Or.inr ha)
              · intro a ha
                rcases List.mem_append.mp ha with ha | ha
                · exact hb a ha
                · rw [List.mem_singleton] at ha
                  subst ha
                  exact ⟨hc, fun h => hcv (Or.inl h)⟩
            obtain ⟨st1, heq1, hm1, hg1, hlt1, hu1, ha1⟩ :=
              IHf (restN ++ [c]) (curDist + d) st hinvc
                (by simp only [List.length_append, List.length_singleton]; omega)
                (by simp only [List.length_append, List.length_singleton]; omega)
                hwc hG
            rw [natsToInts_append, natsToInts_singleton] at heq1
            have hvisT : (mkVis n (nsIdx n start) restN).set c true =
                mkVis n (nsIdx n start) (restN ++ [c]) :=
              mkVis_set_true n (nsIdx n start) restN c
            have h5 : backtrackNP m start n fuel
                ((start :: natsToInts restN) ++ [(c : ℤ)])
                ((mkVis n (nsIdx n start) restN).set c true) (curDist + d)
                st =
                .ok (start :: (natsToInts restN ++ [(c : ℤ)]),
                  mkVis n (nsIdx n start) (restN ++ [c]), st1) := by
              rw [hvisT]
              exact heq1
            have h6 : (start :: (natsToInts restN ++ [(c : ℤ)])).getLast? =
                some (c : ℤ) := by
              rw [getLast?_cons_eq, List.getLastD_concat]
            have hgetc1 : (mkVis n (nsIdx n start) (restN ++ [c])).get? c =
                some true := by
              rw [mkVis_get? n (nsIdx n start) _ hc]
              simp
            have h7 : pySetN (mkVis n (nsIdx n start) (restN ++ [c])) c
                false =
                some ((mkVis n (nsIdx n start) (restN ++ [c])).set c
                  false) := pySetN_of_get? false hgetc1
            have hvisF : (mkVis n (nsIdx n start) (restN ++ [c])).set c
                false = mkVis n (nsIdx n start) restN :=
              mkVis_set_false n (nsIdx n start) restN c hcv
            have hdrop : (start :: (natsToInts restN ++ [(c : ℤ)])).dropLast
                = start :: natsToInts restN := by
              rw [show start :: (natsToInts restN ++ [(c : ℤ)]) =
                (start :: natsToInts restN) ++ [(c : ℤ)] from rfl,
                List.dropLast_concat]
            have hstep := btForNP_descend_eq m (backtrackNP m start n fuel)
              cur curDist cs hgetf hd hsetT h5 h6 h7
            rw [hdrop, hvisF] at hstep
            obtain ⟨st2, heq2, hm2, hg2, hf2, hu2, ha2⟩ := IHcs hrest st1 hg1
            refine ⟨st2, by rw [hstep]; exact heq2, hm2.trans hm1, hg2,
              ?_, ?_, ?_⟩
            · intro _
              exact lt_of_le_of_lt hm2 hlt1
            · intro c2 hc2 hcv2 q hq
              rcases List.mem_cons.mp hc2 with rfl | hc2
              · have hupper := hu1 q hq
                have harr : (restN ++ [c2]) ++ q = restN ++ (c2 :: q) := by
                  simp
                rw [harr] at hupper
                exact hm2.trans hupper
              · exact hu2 c2 hc2 hcv2 q hq
            · rcases ha2 with he2 | ⟨c2, hc2, hcv2, q, hq, he⟩
              · rcases ha1 with he1 | ⟨q, hq, he⟩
                · exact Or.inl (he2.trans he1)
                · refine Or.inr ⟨c, by simp, hcv, q, hq, ?_⟩
                  have harr : (restN ++ [c]) ++ q = restN ++ (c :: q) := by
                    simp
                  rw [he2, he, harr]
              · exact Or.inr ⟨c2, by simp [hc2], hcv2, q, hq, he⟩
      obtain ⟨st2, heqL, hm, hg, hfL, huL, haL⟩ :=
        LOOP (List.range n) (fun c hcc => List.mem_range.mp hcc) st hG
      have hlenne : (start :: natsToInts restN).length ≠ n := by
        simp only [List.length_cons, natsToInts_length]
        omega
      refine ⟨st2, ?_, hm, hg, ?_, ?_, ?_⟩
      · rw [backtrackNP_loop_eq hcur hlenne]
        exact heqL
      · have hne := unvisL_ne_nil hns hinv hlt2
        obtain ⟨c0, cs0, hc0⟩ := List.exists_cons_of_ne_nil hne
        have hc0m : c0 ∈ unvisL n (nsIdx n start) restN := by
          rw [hc0]
          simp
        have hprops := mem_unvisL.mp hc0m
        exact hfL ⟨c0, List.mem_range.mpr hprops.1, hprops.2⟩
      · intro q hq
        have hne := unvisL_ne_nil hns hinv hlt2
        have hqne : q ≠ [] := by
          intro h
          subst h
          exact hne hq.symm.eq_nil
        obtain ⟨c0, q1, rfl, hc0, hq1⟩ := perm_unvis_uncons hq hqne
        have hprops := mem_unvisL.mp hc0
        exact huL c0 (List.mem_range.mpr hprops.1) hprops.2 q1 hq1
      · rcases haL with h | ⟨c0, hc0, hcv0, q1, hq1, he⟩
        · exact Or.inl h
        · refine Or.inr ⟨c0 :: q1, ?_, he⟩
          apply perm_unvis_cons _ hq1
          exact mem_unvisL.mpr ⟨List.mem_range.mp hc0, hcv0⟩

lemma tsp_bbNP_main {m : List (List ℤ)} {n : ℕ} {start : ℤ}
    (hsq : SquareMat m n) (hn : 1 ≤ n) (hlo : -(n : ℤ) ≤ start)
    (hhi : start < (n : ℤ)) {fuel : ℕ} (hfuel : n ≤ fuel) :
    ∃ st2 : BB,
      tsp_branch_and_bound_np m start fuel =
        .ok (st2.bestPath ++ [start], st2.bestDist) ∧
      Good m n start st2 ∧
      st2.bestDist < ⊤ ∧
      (∀ q, q.Perm (unvisL n (nsIdx n start) []) →
        st2.bestDist ≤ tourCostW m start q) ∧
      (∃ q, q.Perm (unvisL n (nsIdx n start) []) ∧
        st2.bestDist = tourCostW m start q) := by
  have hns : nsIdx n start < n := nsIdx_lt hlo hhi
  have hmlen : m.length = n := hsq.1
  have hset : pySet (List.replicate n false) start true =
      some (mkVis n (nsIdx n start) []) := by
    rw [pySet_norm (List.replicate n false) start true
      (by rw [List.length_replicate]; exact hlo)
      (by rw [List.length_replicate]; exact hhi)]
    rw [List.length_replicate, replicate_set_eq_mkVis hns]
  have hri : RestInv n (nsIdx n start) [] :=
    ⟨List.nodup_nil, fun x hx => absurd hx (List.not_mem_nil x)⟩
  obtain ⟨st2, heq, hmono, hGood, hlt, hupper, hatt⟩ :=
    backtrackNP_main hsq hlo hhi fuel [] 0 ⟨[], ⊤⟩ hri (by simp; omega)
      (by simp; omega) rfl (Or.inl rfl)
  rw [natsToInts_nil] at heq
  refine ⟨st2, ?_, hGood, hlt, ?_, ?_⟩
  · simp only [tsp_branch_and_bound_np]
    rw [hmlen, hset]
    simp only []
    rw [heq]
  · intro q hq
    have := hupper q hq
    rwa [List.nil_append] at this
  · rcases hatt with he | ⟨q, hq, he⟩
    · exfalso
      rw [he] at hlt
      exact lt_irrefl _ hlt
    · rw [List.nil_append] at he
      exact ⟨q, hq, he⟩

lemma pySetN_inv {α : Type} {xs : List α} {i : ℕ} {a : α} {ys : List α}
    (h : pySetN xs i a = some ys) : ys = xs.set i a := by
  unfold pySetN at h
  split at h
  · exact (Option.some.inj h).symm
  · exact Option.noConfusion h

lemma set_get?_self {α : Type} {xs : List α} {i : ℕ} {a : α}
    (h : xs.get? i = some a) : xs.set i a = xs := by
  apply List.ext_get?
  intro j
  rcases eq_or_ne j i with rfl | hne
  · have hlt : j < xs.length := by
      by_contra hc
      rw [List.get?_eq_none.mpr (by omega)] at h
      exact Option.noConfusion h
    rw [List.get?_set_eq_of_lt _ hlt, h]
  · rw [List.get?_set_ne _ _ (fun h2 => hne h2.symm)]

lemma btFor_restore {m : List (List ℤ)}
    {bt : List ℤ → List Bool → ℤ → BB → Except Err (List ℤ × List Bool × BB)}
    (hbt : ∀ path visited curDist st p2 v2 st2,
      bt path visited curDist st = .ok (p2, v2, st2) →
      p2 = path ∧ v2 = visited)
    {current curDist : ℤ} :
    ∀ (cs : List ℕ) (path : List ℤ) (visited : List Bool) (st : BB)
      (p2 : List ℤ) (v2 : List Bool) (st2 : BB),
    btFor m bt current curDist cs path visited st = .ok (p2, v2, st2) →
    p2 = path ∧ v2 = visited := by
  intro cs
  induction cs with
  | nil =>
    intro path visited st p2 v2 st2 h
    unfold btFor at h
    have h2 := Except.ok.inj h
    exact ⟨(congrArg Prod.fst h2).symm, (congrArg (fun x => x.2.1) h2).symm⟩
  | cons c cs IH =>
    intro path visited st p2 v2 st2 h
    unfold btFor at h
    split at h
    · exact Except.noConfusion h
    · exact IH path visited st p2 v2 st2 h
    · rename_i hget
      split at h
      · exact Except.noConfusion h
      · rename_i d hd
        split at h
        · split at h
          · exact Except.noConfusion h
          · rename_i visitedT hsetT
            split at h
            · exact Except.noConfusion h
            · rename_i path1 visited1 st1 hchild
              split at h
              · exact Except.noConfusion h
              · rename_i z hz
                split at h
                · exact Except.noConfusion h
                · rename_i visitedF hsetF
                  obtain ⟨hp2, hv2⟩ := IH _ _ _ _ _ _ h
                  obtain ⟨hp1, hv1⟩ := hbt _ _ _ _ _ _ _ hchild
                  subst hp1
                  subst hv1
                  constructor
                  · rw [hp2, List.dropLast_concat]
                  · rw [hv2, pySetN_inv hsetF, pySetN_inv hsetT,
                      List.set_set]
                    exact set_get?_self hget
        · exact IH path visited st p2 v2 st2 h

lemma backtrack_restore {m : List (List ℤ)} {start : ℤ} {n : ℕ} :
    ∀ (fuel : ℕ) (path : List ℤ) (visited : List Bool) (curDist : ℤ)
      (st : BB) (p2 : List ℤ) (v2 : List Bool) (st2 : BB),
    backtrack m start n fuel path visited curDist st = .ok (p2, v2, st2) →
    p2 = path ∧ v2 = visited := by
  intro fuel
  induction fuel with
  | zero =>
    intro path visited curDist st p2 v2 st2 h
    exact Except.noConfusion h
  | succ fuel IHf =>
    intro path visited curDist st p2 v2 st2 h
    unfold backtrack at h
    split at h
    · exact Except.noConfusion h
    · rename_i current hcur
      split at h
      · split at h
        · exact Except.noConfusion h
        · rename_i d hd
          split at h
          · have h2 := Except.ok.inj h
            exact ⟨(congrArg Prod.fst h2).symm,
              (congrArg (fun x => x.2.1) h2).symm⟩
          · have h2 := Except.ok.inj h
            exact ⟨(congrArg Prod.fst h2).symm,
              (congrArg (fun x => x.2.1) h2).symm⟩
      · exact btFor_restore
          (fun pa vi cd s p v s2 hh => IHf pa vi cd s p v s2 hh)
          (List.range n) path visited st p2 v2 st2 h

/-- The minimum of the distance components of the candidate list (the value
the specification's selection rule minimizes); `none` on the empty list. -/
def minDistVal (ds : List (ℤ × ℤ)) : Option ℤ :=
  match ds.map Prod.fst with
  | [] => none
  | d :: rest => some (rest.foldr min d)

/-- The greedy selection rule as worded in the specification: among the
candidates (listed in ascending index order), choose the one with minimum
distance, and on ties choose the lowest index — i.e. the first candidate
whose distance equals the minimum distance. -/
def specChoose (ds : List (ℤ × ℤ)) : Option (ℤ × ℤ) :=
  (minDistVal ds).bind (fun dmin => ds.find? (fun x => decide (x.1 = dmin)))

/-- The greedy loop with the specification's selection rule in place of the
Python `min` call. -/
def greedyLoopSpec (m : List (List ℤ)) (start : ℤ) (n : ℕ) :
    ℕ → List ℤ → List Bool → ℤ → ℤ → Except Err (List ℤ × ℤ)
  | 0, path, _, total, current =>
    match pyGet2 m current start with
    | none => .error .indexError
    | some d => .ok (path ++ [start], total + d)
  | k + 1, path, visited, total, current =>
    match greedyCandidates m visited current n with
    | none => .error .indexError
    | some cands =>
      match specChoose cands with
      | none => .error .valueError
      | some nc =>
        match pyGet2 m current nc.2 with
        | none => .error .indexError
        | some d =>
          match pySet visited nc.2 true with
          | none => .error .indexError
          | some visited1 =>
            greedyLoopSpec m start n k (path ++ [nc.2]) visited1 (total + d)
              nc.2

/-- `tsp_greedy` with the specification's selection rule: repeat `n - 1`
times the choice of the nearest unvisited location (ties resolved to the
lowest index), then append `start` and add the closing edge. -/
def tsp_greedy_spec (m : List (List ℤ)) (start : ℤ) :
    Except Err (List ℤ × ℤ) :=
  let n := m.length
  match pySet (List.replicate n false) start true with
  | none => .error .indexError
  | some visited => greedyLoopSpec m start n (n - 1) [start] visited 0 start

lemma foldr_min_init_le : ∀ (l : List ℤ) (c : ℤ), l.foldr min c ≤ c := by
  intro l
  induction l with
  | nil => intro c; exact le_refl c
  | cons x l ih =>
    intro c
    exact (min_le_right x (l.foldr min c)).trans (ih c)

lemma foldr_min_swap : ∀ (l : List ℤ) (c d : ℤ),
    l.foldr min (min c d) = min c (l.foldr min d) := by
  intro l
  induction l with
  | nil => intro c d; rfl
  | cons x l ih =>
    intro c d
    simp only [List.foldr_cons, ih c d]
    rw [min_left_comm]

lemma find?_min_key : ∀ (xs : List (ℤ × ℤ)) (a : ℤ × ℤ),
    (a :: xs).find?
        (fun x => decide (x.1 = (xs.map Prod.fst).foldr min a.1)) =
      some (xs.foldl pickMin a) := by
  intro xs
  induction xs with
  | nil =>
    intro a
    simp [List.find?]
  | cons y ys ih =>
    intro a
    rcases lt_or_ge y.1 a.1 with hy | hy
    · have hdmin : ((y :: ys).map Prod.fst).foldr min a.1 =
          (ys.map Prod.fst).foldr min y.1 := by
        simp only [List.map_cons, List.foldr_cons]
        rw [← foldr_min_swap, min_eq_left (le_of_lt hy)]
      have hlt : (ys.map Prod.fst).foldr min y.1 < a.1 :=
        lt_of_le_of_lt (foldr_min_init_le _ _) hy
      rw [hdmin, List.find?_cons_of_neg _
        (by simp only [decide_eq_true_eq]; omega)]
      simp only [List.foldl_cons, pickMin, if_pos hy]
      exact ih y
    · have hA_le : (ys.map Prod.fst).foldr min a.1 ≤ a.1 :=
        foldr_min_init_le _ _
      have hdmin : ((y :: ys).map Prod.fst).foldr min a.1 =
          (ys.map Prod.fst).foldr min a.1 := by
        simp only [List.map_cons, List.foldr_cons]
        exact min_eq_right (hA_le.trans hy)
      rw [hdmin]
      have hrhs : (y :: ys).foldl pickMin a = ys.foldl pickMin a := by
        simp only [List.foldl_cons, pickMin, if_neg (not_lt.mpr hy)]
      rw [hrhs, ← ih a]
      by_cases hpa : a.1 = (ys.map Prod.fst).foldr min a.1
      · rw [List.find?_cons_of_pos _
            (by simp only [decide_eq_true_eq]; exact hpa),
          List.find?_cons_of_pos _
            (by simp only [decide_eq_true_eq]; exact hpa)]
      · have hpy : ¬(y.1 = (ys.map Prod.fst).foldr min a.1) := by
          intro h2
          omega
        rw [List.find?_cons_of_neg _
            (by simp only [decide_eq_true_eq]; exact hpa),
          List.find?_cons_of_neg _
            (by simp only [decide_eq_true_eq]; exact hpy),
          List.find?_cons_of_neg _
            (by simp only [decide_eq_true_eq]; exact hpa)]

lemma pyMinKeyFst_eq_specChoose : ∀ ds, pyMinKeyFst ds = specChoose ds := by
  intro ds
  cases ds with
  | nil => rfl
  | cons a xs =>
    simp only [pyMinKeyFst, specChoose, minDistVal, List.map_cons]
    simp only [Option.some_bind]
    rw [find?_min_key xs a]

lemma greedyLoopSpec_eq {m : List (List ℤ)} {start : ℤ} {n : ℕ} :
    ∀ (k : ℕ) (path : List ℤ) (visited : List Bool) (total current : ℤ),
    greedyLoop m start n k path visited total current =
      greedyLoopSpec m start n k path visited total current := by
  intro k
  induction k with
  | zero =>
    intro path visited total current
    rfl
  | succ k ih =>
    intro path visited total current
    unfold greedyLoop greedyLoopSpec
    cases greedyCandidates m visited current n with
    | none => rfl
    | some cands =>
      simp only []
      rw [← pyMinKeyFst_eq_specChoose cands]
      cases pyMinKeyFst cands with
      | none => rfl
      | some nc =>
        simp only []
        cases pyGet2 m current nc.2 with
        | none => rfl
        | some d =>
          simp only []
          cases pySet visited nc.2 true with
          | none => rfl
          | some visited1 =>
            simp only []
            exact ih _ _ _ _

lemma tsp_greedy_eq_spec (m : List (List ℤ)) (start : ℤ) :
    tsp_greedy m start = tsp_greedy_spec m start := by
  unfold tsp_greedy tsp_greedy_spec
  simp only []
  cases pySet (List.replicate m.length false) start true with
  | none => rfl
  | some visited =>
    simp only []
    exact greedyLoopSpec_eq _ _ _ _ _

lemma getLast?_append_singleton {α : Type} (l : List α) (a : α) :
    (l ++ [a]).getLast? = some a := by
  cases l with
  | nil => rfl
  | cons b l =>
    rw [List.cons_append, getLast?_cons_eq, List.getLastD_concat]

lemma natCast_nsIdx {n : ℕ} {start : ℤ} (h0 : 0 ≤ start)
    (hhi : start < (n : ℤ)) : ((nsIdx n start : ℕ) : ℤ) = start := by
  unfold nsIdx
  rw [if_pos h0]
  omega

lemma midsF_perm_unvis {n ns : ℕ} {l : List ℕ} (hns : ns < n)
    (hinv : RestInv n ns l) (hlen : l.length = n - 1) :
    l.Perm (unvisL n ns []) := by
  apply perm_of_nodup_subset_len hinv.1
  · intro x hx
    rw [mem_unvisL]
    have h := hinv.2 x hx
    exact ⟨h.1, by simp [h.2]⟩
  · have hri : RestInv n ns [] :=
      ⟨List.nodup_nil, fun x hx => absurd hx (List.not_mem_nil x)⟩
    have := length_unvisL hns hri
    simp only [List.length_nil] at this
    omega

lemma cons_perm_range {n ns : ℕ} {l : List ℕ} (hns : ns < n)
    (hinv : RestInv n ns l) (hlen : l.length + 1 = n) :
    (ns :: l).Perm (List.range n) := by
  apply perm_of_nodup_subset_len
  · rw [List.nodup_cons]
    exact ⟨fun h => (hinv.2 ns h).2 rfl, hinv.1⟩
  · intro x hx
    rw [List.mem_range]
    rcases List.mem_cons.mp hx with rfl | hx
    · exact hns
    · exact (hinv.2 x hx).1
  · simp only [List.length_range, List.length_cons]
    omega

lemma start_cons_perm_range {n : ℕ} {start : ℤ} (h0 : 0 ≤ start)
    (hhi : start < (n : ℤ)) {l : List ℕ}
    (hinv : RestInv n (nsIdx n start) l) (hlen : l.length + 1 = n) :
    (start :: natsToInts l).Perm (natsToInts (List.range n)) := by
  have hns : nsIdx n start < n := nsIdx_lt (by omega) hhi
  have hcast : ((nsIdx n start : ℕ) : ℤ) = start := natCast_nsIdx h0 hhi
  have hperm := (cons_perm_range hns hinv hlen).map (fun j : ℕ => (j : ℤ))
  rw [show ((nsIdx n start :: l).map (fun j : ℕ => (j : ℤ))) =
    ((nsIdx n start : ℕ) : ℤ) :: natsToInts l from rfl, hcast] at hperm
  exact hperm

lemma oob_errors {m : List (List ℤ)} {start : ℤ}
    (h : start < -(m.length : ℤ) ∨ (m.length : ℤ) ≤ start) :
    tsp_greedy m start = .error .indexError ∧
      ∀ fuel, tsp_branch_and_bound m start fuel = .error .indexError := by
  have hset : pySet (List.replicate m.length false) start true = none :=
    pySet_oob _ _ _ (by rw [List.length_replicate]; exact h)
  constructor
  · simp only [tsp_greedy]
    rw [hset]
  · intro fuel
    simp only [tsp_branch_and_bound]
    rw [hset]

/-- C1: for every square symmetric distance matrix with zero diagonal and
non-negative entries, every n with 1 ≤ n, and every start index in [0, n),
the total distance returned by `tsp_branch_and_bound` equals the minimum,
over all permutations of the other n-1 indices, of the closed-tour length
that starts and ends at start. -/
theorem claim1_bb_optimal {m : List (List ℤ)} {n : ℕ} {start : ℤ} {fuel : ℕ}
    (hsq : SquareMat m n) (hsym : SymmMat m n) (hdiag : ZeroDiag m n)
    (hnn : NonnegMat m) (hn : 1 ≤ n) (h0 : 0 ≤ start)
    (hhi : start < (n : ℤ)) (hfuel : n ≤ fuel) :
    ∃ p, tsp_branch_and_bound m start fuel =
      .ok (p, bruteMinDist m start) := by
  have hlo : -(n : ℤ) ≤ start := by omega
  obtain ⟨st2, heq, hGood, hlt, hupper, hatt⟩ :=
    tsp_bb_main hsq hn hlo hhi hfuel
  have hml : m.length = n := hsq.1
  have hothers : othersList m.length start = unvisL n (nsIdx n start) [] := by
    rw [hml, unvisL_nil_eq_others h0]
  have hbest : st2.bestDist = bruteMinDist m start := by
    apply bruteMin_eq_of
    · intro q hq
      rw [hothers] at hq
      exact hupper hnn q hq
    · obtain ⟨q, hq, he⟩ := hatt hnn
      exact ⟨q, by rw [hothers]; exact hq, he⟩
  exact ⟨st2.bestPath ++ [start], by rw [heq, hbest]⟩

/-- C2: for every valid matrix and start, the totalDistance returned by each
solver equals the sum of `distance_matrix[path[k]][path[k+1]]` recomputed
literally from the returned path and the input matrix. -/
theorem claim2_round_trip {m : List (List ℤ)} {n : ℕ} {start : ℤ} {fuel : ℕ}
    (hsq : SquareMat m n) (hsym : SymmMat m n) (hdiag : ZeroDiag m n)
    (hnn : NonnegMat m) (hn : 1 ≤ n) (h0 : 0 ≤ start)
    (hhi : start < (n : ℤ)) (hfuel : n ≤ fuel) :
    (∃ pg tg, tsp_greedy m start = .ok (pg, tg) ∧
      recompute m pg = some tg) ∧
    (∃ pb tb, tsp_branch_and_bound m start fuel =
        .ok (pb, ((tb : ℤ) : WithTop ℤ)) ∧
      recompute m pb = some tb) := by
  have hlo : -(n : ℤ) ≤ start := by omega
  constructor
  · obtain ⟨midsF, tg, heq, hinv, hlen, hwalk⟩ :=
      tsp_greedy_main hsq hn hlo hhi
    exact ⟨_, tg, heq, by rw [recompute_cons]; exact hwalk⟩
  · obtain ⟨st2, heq, hGood, hlt, -, -⟩ := tsp_bb_main hsq hn hlo hhi hfuel
    rcases hGood with htop | ⟨t, restB, hdist, hpath, hinvB, hlenB, hwalkB⟩
    · rw [htop] at hlt
      exact absurd hlt (lt_irrefl _)
    · refine ⟨st2.bestPath ++ [start], t, ?_, ?_⟩
      · rw [heq, hdist]
      · rw [hpath, List.cons_append, recompute_cons]
        exact hwalkB

/-- C3: for every n ≥ 1, every square matrix of size n, and every start in
[0, n), both solvers return a path of length n+1 whose first and last
entries equal start and whose first n entries contain every index in [0, n)
exactly once. -/
theorem claim3_path_validity {m : List (List ℤ)} {n : ℕ} {start : ℤ}
    {fuel : ℕ} (hsq : SquareMat m n) (hn : 1 ≤ n) (h0 : 0 ≤ start)
    (hhi : start < (n : ℤ)) (hfuel : n ≤ fuel) :
    (∃ pg tg, tsp_greedy m start = .ok (pg, tg) ∧ pg.length = n + 1 ∧
      pg.head? = some start ∧ pg.getLast? = some start ∧
      pg.dropLast.Perm (natsToInts (List.range n))) ∧
    (∃ pb db, tsp_branch_and_bound m start fuel = .ok (pb, db) ∧
      pb.length = n + 1 ∧ pb.head? = some start ∧ pb.getLast? = some start ∧
      pb.dropLast.Perm (natsToInts (List.range n))) := by
  have hlo : -(n : ℤ) ≤ start := by omega
  constructor
  · obtain ⟨midsF, tg, heq, hinv, hlen, -⟩ := tsp_greedy_main hsq hn hlo hhi
    refine ⟨_, tg, heq, ?_, rfl, ?_, ?_⟩
    · simp [natsToInts_length]
      omega
    · rw [show start :: (natsToInts midsF ++ [start]) =
        (start :: natsToInts midsF) ++ [start] from rfl]
      exact getLast?_append_singleton _ _
    · rw [show start :: (natsToInts midsF ++ [start]) =
        (start :: natsToInts midsF) ++ [start] from rfl,
        List.dropLast_concat]
      exact start_cons_perm_range h0 hhi hinv (by omega)
  · obtain ⟨st2, heq, hGood, hlt, -, -⟩ := tsp_bb_main hsq hn hlo hhi hfuel
    rcases hGood with htop | ⟨t, restB, hdist, hpath, hinvB, hlenB, hwalkB⟩
    · rw [htop] at hlt
      exact absurd hlt (lt_irrefl _)
    · refine ⟨st2.bestPath ++ [start], st2.bestDist, heq, ?_, ?_,
        getLast?_append_singleton _ _, ?_⟩
      · rw [hpath]
        simp [natsToInts_length]
        omega
      · rw [hpath]
        rfl
      · rw [List.dropLast_concat, hpath]
        exact start_cons_perm_range h0 hhi hinvB hlenB

/-- C4: for every valid matrix and start, `tsp_branch_and_bound` with its
pruning test returns the same totalDistance as the same depth-first search
with the pruning test removed; soundness of the prune rests on the
non-negativity of the edges. -/
theorem claim4_prune_refinement {m : List (List ℤ)} {n : ℕ} {start : ℤ}
    {fuel : ℕ} (hsq : SquareMat m n) (hsym : SymmMat m n)
    (hdiag : ZeroDiag m n) (hnn : NonnegMat m) (hn : 1 ≤ n) (h0 : 0 ≤ start)
    (hhi : start < (n : ℤ)) (hfuel : n ≤ fuel) :
    ∃ p d p2 d2, tsp_branch_and_bound m start fuel = .ok (p, d) ∧
      tsp_branch_and_bound_np m start fuel = .ok (p2, d2) ∧ d = d2 := by
  have hlo : -(n : ℤ) ≤ start := by omega
  have hml : m.length = n := hsq.1
  have hothers : othersList m.length start = unvisL n (nsIdx n start) [] := by
    rw [hml, unvisL_nil_eq_others h0]
  obtain ⟨st2, heq, -, -, hupper, hatt⟩ := tsp_bb_main hsq hn hlo hhi hfuel
  obtain ⟨st3, heq3, -, -, hupper3, hatt3⟩ :=
    tsp_bbNP_main hsq hn hlo hhi hfuel
  have h2 : st2.bestDist = bruteMinDist m start := by
    apply bruteMin_eq_of
    · intro q hq
      rw [hothers] at hq
      exact hupper hnn q hq
    · obtain ⟨q, hq, he⟩ := hatt hnn
      exact ⟨q, by rw [hothers]; exact hq, he⟩
  have h3 : st3.bestDist = bruteMinDist m start := by
    apply bruteMin_eq_of
    · intro q hq
      rw [hothers] at hq
      exact hupper3 q hq
    · obtain ⟨q, hq, he⟩ := hatt3
      exact ⟨q, by rw [hothers]; exact hq, he⟩
  exact ⟨_, _, _, _, heq, heq3, by rw [h2, h3]⟩

/-- C5: for every valid matrix and start, the totalDistance returned by
`tsp_branch_and_bound` is at most the totalDistance returned by
`tsp_greedy`. -/
theorem claim5_bb_le_greedy {m : List (List ℤ)} {n : ℕ} {start : ℤ}
    {fuel : ℕ} (hsq : SquareMat m n) (hsym : SymmMat m n)
    (hdiag : ZeroDiag m n) (hnn : NonnegMat m) (hn : 1 ≤ n) (h0 : 0 ≤ start)
    (hhi : start < (n : ℤ)) (hfuel : n ≤ fuel) :
    ∃ pb db pg tg, tsp_branch_and_bound m start fuel = .ok (pb, db) ∧
      tsp_greedy m start = .ok (pg, tg) ∧ db ≤ ((tg : ℤ) : WithTop ℤ) := by
  have hlo : -(n : ℤ) ≤ start := by omega
  obtain ⟨midsF, tg, heqg, hinvG, hlenG, hwalkG⟩ :=
    tsp_greedy_main hsq hn hlo hhi
  obtain ⟨st2, heqb, -, -, hupper, -⟩ := tsp_bb_main hsq hn hlo hhi hfuel
  have hns : nsIdx n start < n := nsIdx_lt hlo hhi
  have hperm := midsF_perm_unvis hns hinvG hlenG
  have hcost : tourCostW m start midsF = ((tg : ℤ) : WithTop ℤ) := by
    rw [tourCostW_eq_walk, hwalkG]
  have hle := hupper hnn midsF hperm
  rw [hcost] at hle
  exact ⟨_, _, _, tg, heqb, heqg, hle⟩

/-- C6: `tsp_greedy` performs exactly n-1 selection steps, each choosing the
nearest unvisited location from the current one with ties resolved to the
lowest index, then closes the tour back to start — it coincides with the
specification-level greedy `tsp_greedy_spec` on all inputs. -/
theorem claim6_greedy_spec_refinement :
    ∀ (m : List (List ℤ)) (start : ℤ),
      tsp_greedy m start = tsp_greedy_spec m start :=
  tsp_greedy_eq_spec

/-- C7 counterexample: start = -1 is outside [0, n) for the 1-location
matrix, yet both solvers return a result instead of failing: Python
negative indexing accepts it. -/
theorem claim7_counterexample :
    ¬((0 : ℤ) ≤ -1) ∧
    tsp_greedy [[(0 : ℤ)]] (-1) = .ok ([-1, -1], 0) ∧
    tsp_branch_and_bound [[(0 : ℤ)]] (-1) 1 =
      .ok ([-1, -1], ((0 : ℤ) : WithTop ℤ)) := by
  refine ⟨by decide, rfl, rfl⟩

/-- C7 amended: both solvers fail with the same IndexError exactly when
start is outside [-n, n); in particular every start fails on the empty
matrix, with this IndexError rather than a distinct empty-matrix error, and
the failure happens at the initial `visited[start] = True` assignment. -/
theorem claim7_amended {m : List (List ℤ)} {start : ℤ}
    (h : start < -(m.length : ℤ) ∨ (m.length : ℤ) ≤ start) :
    tsp_greedy m start = .error .indexError ∧
      ∀ fuel, tsp_branch_and_bound m start fuel = .error .indexError :=
  oob_errors h

/-- C8: every `backtrack` call that returns restores its mutable state: the
returned path and visited array equal the ones passed in (each child is
popped and unmarked on every exit), so the marks invariant is preserved;
at the top level path and visited come back as `[start]` and `{start}`. -/
theorem claim8_backtrack_restore {m : List (List ℤ)} {start : ℤ}
    {n fuel : ℕ} {path : List ℤ} {visited : List Bool} {curDist : ℤ}
    {st : BB} {p2 : List ℤ} {v2 : List Bool} {st2 : BB}
    (h : backtrack m start n fuel path visited curDist st =
      .ok (p2, v2, st2)) :
    p2 = path ∧ v2 = visited ∧ (Marks n path visited → Marks n p2 v2) := by
  obtain ⟨h1, h2⟩ := backtrack_restore fuel path visited curDist st p2 v2
    st2 h
  refine ⟨h1, h2, fun hm => ?_⟩
  rw [h1, h2]
  exact hm

/-- C9: for every n ≥ 1, square matrix and valid start, the backtracking
search terminates: with any fuel of at least n (the recursion depth is
bounded by n) the solver returns a result rather than exhausting fuel. -/
theorem claim9_termination {m : List (List ℤ)} {n : ℕ} {start : ℤ}
    (hsq : SquareMat m n) (hn : 1 ≤ n) (h0 : 0 ≤ start)
    (hhi : start < (n : ℤ)) :
    ∀ fuel, n ≤ fuel → ∃ r, tsp_branch_and_bound m start fuel = .ok r := by
  intro fuel hfuel
  obtain ⟨st2, heq, -, -, -, -⟩ := tsp_bb_main hsq hn (by omega) hhi hfuel
  exact ⟨_, heq⟩

/-- C10: for every n ≥ 1 square matrix and every negative start in
[-n, -1], both solvers return without error; the start is interpreted as
position n + start of the matrix (the middle of the greedy tour is exactly
the set of indices other than n + start), the returned paths have length
n+1, and their first and last entries are the negative value start
itself. -/
theorem claim10_negative_start {m : List (List ℤ)} {n : ℕ} {start : ℤ}
    {fuel : ℕ} (hsq : SquareMat m n) (hn : 1 ≤ n) (hlo : -(n : ℤ) ≤ start)
    (hneg : start ≤ -1) (hfuel : n ≤ fuel) :
    (∃ pg tg, tsp_greedy m start = .ok (pg, tg) ∧ pg.length = n + 1 ∧
      pg.head? = some start ∧ pg.getLast? = some start ∧
      ∃ mids, pg = (start :: mids) ++ [start] ∧
        mids.Perm (natsToInts ((List.range n).filter
          (fun j : ℕ => decide (¬((j : ℤ) = start + (n : ℤ))))))) ∧
    (∃ pb db, tsp_branch_and_bound m start fuel = .ok (pb, db) ∧
      pb.length = n + 1 ∧ pb.head? = some start ∧
      pb.getLast? = some start) := by
  have hhi : start < (n : ℤ) := by omega
  constructor
  · obtain ⟨midsF, tg, heq, hinv, hlen, -⟩ := tsp_greedy_main hsq hn hlo hhi
    refine ⟨_, tg, heq, ?_, rfl, ?_, ?_⟩
    · simp [natsToInts_length]
      omega
    · rw [show start :: (natsToInts midsF ++ [start]) =
        (start :: natsToInts midsF) ++ [start] from rfl]
      exact getLast?_append_singleton _ _
    · refine ⟨natsToInts midsF, rfl, ?_⟩
      have hns : nsIdx n start < n := nsIdx_lt hlo hhi
      have hperm := (midsF_perm_unvis hns hinv hlen).map
        (fun j : ℕ => (j : ℤ))
      have hfil : unvisL n (nsIdx n start) [] =
          (List.range n).filter
            (fun j : ℕ => decide (¬((j : ℤ) = start + (n : ℤ)))) := by
        unfold unvisL
        apply List.filter_congr
        intro j hj
        apply decide_eq_decide.mpr
        apply not_congr
        rw [List.mem_range] at hj
        simp only [List.not_mem_nil, or_false]
        unfold nsIdx
        rw [if_neg (by omega)]
        omega
      rw [← hfil]
      exact hperm
  · obtain ⟨st2, heq, hGood, hlt, -, -⟩ := tsp_bb_main hsq hn hlo hhi hfuel
    rcases hGood with htop | ⟨t, restB, hdist, hpath, hinvB, hlenB, hwalkB⟩
    · rw [htop] at hlt
      exact absurd hlt (lt_irrefl _)
    · refine ⟨st2.bestPath ++ [start], st2.bestDist, heq, ?_, ?_,
        getLast?_append_singleton _ _⟩
      · rw [hpath]
        simp [natsToInts_length]
        omega
      · rw [hpath]
        rfl

/-- The 4-location distance matrix of the specification's concrete test
scenario (optimal tour 0-1-3-2-0 of length 80). -/
def hydM4 : List (List ℤ) :=
  [[0, 10, 15, 20], [10, 0, 35, 25], [15, 35, 0, 30], [20, 25, 30, 0]]

theorem claim1_witness :
    (SquareMat hydM4 4 ∧ SymmMat hydM4 4 ∧ ZeroDiag hydM4 4 ∧
      NonnegMat hydM4 ∧ 1 ≤ 4 ∧ (0 : ℤ) ≤ 0 ∧ (0 : ℤ) < ((4 : ℕ) : ℤ) ∧
      4 ≤ 4) ∧
    ∃ p, tsp_branch_and_bound hydM4 0 4 = .ok (p, bruteMinDist hydM4 0) :=
  ⟨⟨by decide, by decide, by decide, by decide, by decide, by decide,
    by decide, by decide⟩,
    claim1_bb_optimal (n := 4) (by decide) (by decide) (by decide) (by decide)
      (by decide) (by decide) (by decide) (by decide)⟩

theorem claim2_witness :
    (SquareMat hydM4 4 ∧ SymmMat hydM4 4 ∧ ZeroDiag hydM4 4 ∧
      NonnegMat hydM4 ∧ 1 ≤ 4 ∧ (0 : ℤ) ≤ 0 ∧ (0 : ℤ) < ((4 : ℕ) : ℤ) ∧
      4 ≤ 4) ∧
    ((∃ pg tg, tsp_greedy hydM4 0 = .ok (pg, tg) ∧
      recompute hydM4 pg = some tg) ∧
    (∃ pb tb, tsp_branch_and_bound hydM4 0 4 =
        .ok (pb, ((tb : ℤ) : WithTop ℤ)) ∧
      recompute hydM4 pb = some tb)) :=
  ⟨⟨by decide, by decide, by decide, by decide, by decide, by decide,
    by decide, by decide⟩,
    claim2_round_trip (n := 4) (by decide) (by decide) (by decide) (by decide)
      (by decide) (by decide) (by decide) (by decide)⟩

theorem claim3_witness :
    (SquareMat hydM4 4 ∧ 1 ≤ 4 ∧ (0 : ℤ) ≤ 0 ∧ (0 : ℤ) < ((4 : ℕ) : ℤ) ∧
      4 ≤ 4) ∧
    ((∃ pg tg, tsp_greedy hydM4 0 = .ok (pg, tg) ∧ pg.length = 4 + 1 ∧
      pg.head? = some 0 ∧ pg.getLast? = some 0 ∧
      pg.dropLast.Perm (natsToInts (List.range 4))) ∧
    (∃ pb db, tsp_branch_and_bound hydM4 0 4 = .ok (pb, db) ∧
      pb.length = 4 + 1 ∧ pb.head? = some 0 ∧ pb.getLast? = some 0 ∧
      pb.dropLast.Perm (natsToInts (List.range 4)))) :=
  ⟨⟨by decide, by decide, by decide, by decide, by decide⟩,
    claim3_path_validity (n := 4) (by decide) (by decide) (by decide) (by decide)
      (by decide)⟩

theorem claim4_witness :
    (SquareMat hydM4 4 ∧ SymmMat hydM4 4 ∧ ZeroDiag hydM4 4 ∧
      NonnegMat hydM4 ∧ 1 ≤ 4 ∧ (0 : ℤ) ≤ 0 ∧ (0 : ℤ) < ((4 : ℕ) : ℤ) ∧
      4 ≤ 4) ∧
    ∃ p d p2 d2, tsp_branch_and_bound hydM4 0 4 = .ok (p, d) ∧
      tsp_branch_and_bound_np hydM4 0 4 = .ok (p2, d2) ∧ d = d2 :=
  ⟨⟨by decide, by decide, by decide, by decide, by decide, by decide,
    by decide, by decide⟩,
    claim4_prune_refinement (n := 4) (by decide) (by decide) (by decide) (by decide)
      (by decide) (by decide) (by decide) (by decide)⟩

theorem claim5_witness :
    (SquareMat hydM4 4 ∧ SymmMat hydM4 4 ∧ ZeroDiag hydM4 4 ∧
      NonnegMat hydM4 ∧ 1 ≤ 4 ∧ (0 : ℤ) ≤ 0 ∧ (0 : ℤ) < ((4 : ℕ) : ℤ) ∧
      4 ≤ 4) ∧
    ∃ pb db pg tg, tsp_branch_and_bound hydM4 0 4 = .ok (pb, db) ∧
      tsp_greedy hydM4 0 = .ok (pg, tg) ∧ db ≤ ((tg : ℤ) : WithTop ℤ) :=
  ⟨⟨by decide, by decide, by decide, by decide, by decide, by decide,
    by decide, by decide⟩,
    claim5_bb_le_greedy (n := 4) (by decide) (by decide) (by decide) (by decide)
      (by decide) (by decide) (by decide) (by decide)⟩

theorem claim7_amended_witness :
    ((5 : ℤ) < -(([[(0 : ℤ)]] : List (List ℤ)).length : ℤ) ∨
      ((([[(0 : ℤ)]] : List (List ℤ)).length : ℤ) ≤ 5)) ∧
    (tsp_greedy [[(0 : ℤ)]] 5 = .error .indexError ∧
      ∀ fuel, tsp_branch_and_bound [[(0 : ℤ)]] 5 fuel =
        .error .indexError) :=
  ⟨by decide, claim7_amended (by decide)⟩

theorem claim8_witness :
    (backtrack [[0, 1], [1, 0]] 0 2 2 [0] [true, false] 0 ⟨[], ⊤⟩ =
      .ok ([0], [true, false], ⟨[0, 1], ((2 : ℤ) : WithTop ℤ)⟩)) ∧
    (([0] : List ℤ) = [0] ∧ ([true, false] : List Bool) = [true, false] ∧
      (Marks 2 [0] [true, false] → Marks 2 [0] [true, false])) := by
  have h : backtrack [[0, 1], [1, 0]] 0 2 2 [0] [true, false] 0 ⟨[], ⊤⟩ =
      .ok ([0], [true, false], ⟨[0, 1], ((2 : ℤ) : WithTop ℤ)⟩) := rfl
  exact ⟨h, claim8_backtrack_restore h⟩

theorem claim9_witness :
    (SquareMat hydM4 4 ∧ 1 ≤ 4 ∧ (0 : ℤ) ≤ 0 ∧ (0 : ℤ) < ((4 : ℕ) : ℤ)) ∧
    ∀ fuel, 4 ≤ fuel → ∃ r, tsp_branch_and_bound hydM4 0 fuel = .ok r :=
  ⟨⟨by decide, by decide, by decide, by decide⟩,
    claim9_termination (n := 4) (by decide) (by decide) (by decide) (by decide)⟩

theorem claim10_witness :
    (SquareMat hydM4 4 ∧ 1 ≤ 4 ∧ -((4 : ℕ) : ℤ) ≤ -1 ∧ (-1 : ℤ) ≤ -1 ∧
      4 ≤ 4) ∧
    ((∃ pg tg, tsp_greedy hydM4 (-1) = .ok (pg, tg) ∧ pg.length = 4 + 1 ∧
      pg.head? = some (-1) ∧ pg.getLast? = some (-1) ∧
      ∃ mids, pg = ((-1) :: mids) ++ [-1] ∧
        mids.Perm (natsToInts ((List.range 4).filter
          (fun j : ℕ => decide (¬((j : ℤ) = -1 + ((4 : ℕ) : ℤ))))))) ∧
    (∃ pb db, tsp_branch_and_bound hydM4 (-1) 4 = .ok (pb, db) ∧
      pb.length = 4 + 1 ∧ pb.head? = some (-1) ∧
      pb.getLast? = some (-1))) :=
  ⟨⟨by decide, by decide, by decide, by decide, by decide⟩,
    claim10_negative_start (n := 4) (by decide) (by decide) (by decide) (by decide)
      (by decide)⟩

end TSP
